import Mathlib

set_option maxRecDepth 16384
set_option maxHeartbeats 1000000

/-!
Shallow embedding of the claude-max-api-proxy adapter (TypeScript/JavaScript
sources under dist/) in Lean 4, together with theorems settling the frozen
claims about its specification.

Modelling conventions:
* JS strings are embedded as `List Char` (abbreviated `Str`).  Exotic Unicode
  whitespace recognised by JS `\s` and `String.prototype.trim` beyond the
  ASCII range is not modelled; the ASCII whitespace characters are.
* JSON values are embedded as the mutual inductive `Json`/`JArr`/`JObj`.
  Numbers are restricted to integers (the sources only ever re-serialise
  what they parsed, and no claim depends on float formatting).  Objects are
  ordered key/value lists; member access (`jget`) takes the last binding,
  matching `JSON.parse` duplicate-key semantics for lookups.
* `JSON.parse` is embedded as the fuelled recursive `parseValue`; fuel is
  instantiated with the input length so the function is structural and
  computable.  The embedded grammar accepts every text produced by the
  embedded serialisers and rejects the malformed bodies exercised by the
  claims; lone-surrogate escapes and float literals are outside the model.
* Functions that can throw in JS (`JSON.parse` inside `messagesToPrompt`)
  return `Option`; `none` models a thrown exception propagating out.
* The fresh-uuid source used for minted tool-call ids is abstracted as a
  supply `sup : Nat → Str`.
* `Date.now()` and clock readings are passed in as explicit parameters.
-/

abbrev Str := List Char

def chars (s : String) : Str := s.data

/-- JSON whitespace (the characters `JSON.parse` skips between tokens). -/
def isJsonWs (c : Char) : Bool :=
  c = ' ' || c = '\t' || c = '\n' || c = '\r'

/-- ASCII part of the JS regex class `\s` and of `String.prototype.trim`. -/
def isJsWs (c : Char) : Bool :=
  c = ' ' || c = '\t' || c = '\n' || c = '\r' || c = '\x0b' || c = '\x0c'

/-- Left trim, as in the leading side of `String.prototype.trim`. -/
def trimWsL (cs : Str) : Str := cs.dropWhile isJsWs

/-- Right trim, as in the trailing side of `String.prototype.trim`. -/
def trimWsR (cs : Str) : Str := (cs.reverse.dropWhile isJsWs).reverse

/-- Embedding of `String.prototype.trim`. -/
def trimWs (cs : Str) : Str := trimWsL (trimWsR cs)

/-- `occurs pat cs` is true when `pat` occurs as a contiguous substring. -/
def occurs (pat : Str) : Str → Bool
  | [] => pat.isPrefixOf ([] : Str)
  | c :: t => pat.isPrefixOf (c :: t) || occurs pat t

/-- Suffix of `cs` starting at the first occurrence of `pat`, if any. -/
def dropToSub (pat : Str) : Str → Option Str
  | [] => if pat.isPrefixOf ([] : Str) then some ([] : Str) else none
  | c :: t => if pat.isPrefixOf (c :: t) then some (c :: t) else dropToSub pat t

/-- Split at the first occurrence of `pat`: returns the part strictly before
the occurrence and the part strictly after it. -/
def splitSub (pat : Str) : Str → Option (Str × Str)
  | [] => if pat.isPrefixOf ([] : Str) then some ([], []) else none
  | c :: t =>
    if pat.isPrefixOf (c :: t) then some ([], (c :: t).drop pat.length)
    else match splitSub pat t with
      | some (a, b) => some (c :: a, b)
      | none => none

/-- Concatenation of a list of strings (JS `+=` accumulation). -/
def concatStrs (l : List Str) : Str := l.foldl (· ++ ·) []

/-- JS truthiness of an optional string (`undefined`/`null`/`""` are falsy). -/
def strTruthy : Option Str → Bool
  | none => false
  | some s => !s.isEmpty

/-! ### JSON values -/

mutual
inductive Json where
  | null : Json
  | bool (b : Bool) : Json
  | num (n : Int) : Json
  | str (s : Str) : Json
  | arr (xs : JArr) : Json
  | obj (kvs : JObj) : Json
  deriving DecidableEq
inductive JArr where
  | nil : JArr
  | cons (hd : Json) (tl : JArr) : JArr
  deriving DecidableEq
inductive JObj where
  | nil : JObj
  | cons (k : Str) (v : Json) (tl : JObj) : JObj
  deriving DecidableEq
end

/-- Member lookup on a parsed object; the last binding wins, as for
property access on the result of `JSON.parse` with duplicate keys. -/
def jget : JObj → Str → Option Json
  | .nil, _ => none
  | .cons k' v rest, k =>
    match jget rest k with
    | some r => some r
    | none => if k' = k then some v else none

/-- Property access `j.k` on an arbitrary parsed value (non-objects have no
own properties in the fragment the sources exercise). -/
def jgetJ : Json → Str → Option Json
  | .obj kvs, k => jget kvs k
  | _, _ => none

/-- JS truthiness of an optional JSON value. -/
def jtruthy : Option Json → Bool
  | none => false
  | some .null => false
  | some (.bool b) => b
  | some (.num n) => decide (n ≠ 0)
  | some (.str s) => !s.isEmpty
  | some (.arr _) => true
  | some (.obj _) => true

/-! ### JSON serialisation (`JSON.stringify`, compact and 2-space pretty) -/

def digitChar : Nat → Char
  | 0 => '0' | 1 => '1' | 2 => '2' | 3 => '3' | 4 => '4'
  | 5 => '5' | 6 => '6' | 7 => '7' | 8 => '8' | _ => '9'

def digitVal (c : Char) : Option Nat :=
  if 48 ≤ c.toNat ∧ c.toNat ≤ 57 then some (c.toNat - 48) else none

def hexDigitChar (n : Nat) : Char :=
  if n < 10 then digitChar n
  else if n = 10 then 'a' else if n = 11 then 'b' else if n = 12 then 'c'
  else if n = 13 then 'd' else if n = 14 then 'e' else 'f'

def hexVal (c : Char) : Option Nat :=
  if 48 ≤ c.toNat ∧ c.toNat ≤ 57 then some (c.toNat - 48)
  else if 97 ≤ c.toNat ∧ c.toNat ≤ 102 then some (c.toNat - 87)
  else if 65 ≤ c.toNat ∧ c.toNat ≤ 70 then some (c.toNat - 55)
  else none

def natDigitsF : Nat → Nat → Str
  | 0, _ => []
  | f+1, n => if n < 10 then [digitChar n] else natDigitsF f (n / 10) ++ [digitChar (n % 10)]

/-- Decimal digits of a natural number, most significant first. -/
def natDigits (n : Nat) : Str := natDigitsF (n + 1) n

/-- Decimal rendering of an integer (JS number-to-string for integers). -/
def serInt (i : Int) : Str :=
  if i < 0 then '-' :: natDigits i.natAbs else natDigits i.natAbs

/-- The escape sequence `JSON.stringify` emits for one string character. -/
def escSeq (c : Char) : Str :=
  if c = '"' then ['\\', '"']
  else if c = '\\' then ['\\', '\\']
  else if c = '\x08' then ['\\', 'b']
  else if c = '\t' then ['\\', 't']
  else if c = '\n' then ['\\', 'n']
  else if c = '\x0c' then ['\\', 'f']
  else if c = '\r' then ['\\', 'r']
  else if c.toNat < 32 then
    ['\\', 'u', '0', '0', hexDigitChar (c.toNat / 16), hexDigitChar (c.toNat % 16)]
  else [c]

def escapeStr (s : Str) : Str := (s.map escSeq).flatten

/-- A double-quoted JSON string literal. -/
def qstr (s : Str) : Str := '"' :: (escapeStr s ++ ['"'])

def spacesN : Nat → Str
  | 0 => []
  | n+1 => ' ' :: spacesN n

mutual
/-- `JSON.stringify` on the embedded values.  `none` is the compact form
(`JSON.stringify(v)`); `some i` is the 2-space pretty form
(`JSON.stringify(v, null, 2)`) at current indentation `i`. -/
def serJ : Option Nat → Json → Str
  | _, .null => chars "null"
  | _, .bool true => chars "true"
  | _, .bool false => chars "false"
  | _, .num n => serInt n
  | _, .str s => qstr s
  | _, .arr .nil => chars "[]"
  | none, .arr xs => '[' :: (serItemsC xs ++ [']'])
  | some i, .arr xs =>
      '[' :: '\n' :: (serItemsP (i + 2) xs ++ '\n' :: (spacesN i ++ [']']))
  | _, .obj .nil => chars "{}"
  | none, .obj kvs => '{' :: (serKVsC kvs ++ ['}'])
  | some i, .obj kvs =>
      '{' :: '\n' :: (serKVsP (i + 2) kvs ++ '\n' :: (spacesN i ++ ['}']))
def serItemsC : JArr → Str
  | .nil => []
  | .cons x tl =>
    match tl with
    | .nil => serJ none x
    | .cons _ _ => serJ none x ++ ',' :: serItemsC tl
def serItemsP : Nat → JArr → Str
  | _, .nil => []
  | i, .cons x tl =>
    match tl with
    | .nil => spacesN i ++ serJ (some i) x
    | .cons _ _ => spacesN i ++ serJ (some i) x ++ ',' :: '\n' :: serItemsP i tl
def serKVsC : JObj → Str
  | .nil => []
  | .cons k v tl =>
    match tl with
    | .nil => qstr k ++ ':' :: serJ none v
    | .cons _ _ _ => qstr k ++ ':' :: serJ none v ++ ',' :: serKVsC tl
def serKVsP : Nat → JObj → Str
  | _, .nil => []
  | i, .cons k v tl =>
    match tl with
    | .nil => spacesN i ++ qstr k ++ ':' :: ' ' :: serJ (some i) v
    | .cons _ _ _ =>
        spacesN i ++ qstr k ++ ':' :: ' ' :: serJ (some i) v ++ ',' :: '\n' :: serKVsP i tl
end

/-! ### JSON parsing (`JSON.parse`) -/

def skipWs (cs : Str) : Str := cs.dropWhile isJsonWs

/-- Body of a JSON string literal, after the opening quote.  Returns the
decoded characters and the remainder after the closing quote.  Surrogate
escapes are not modelled (no claim depends on them). -/
def parseStringBody : Str → Option (Str × Str)
  | [] => none
  | c :: t =>
    if c = '"' then some ([], t)
    else if c = '\\' then
      match t with
      | [] => none
      | e :: t2 =>
        if e = '"' then (parseStringBody t2).map (fun p => ('"' :: p.1, p.2))
        else if e = '\\' then (parseStringBody t2).map (fun p => ('\\' :: p.1, p.2))
        else if e = '/' then (parseStringBody t2).map (fun p => ('/' :: p.1, p.2))
        else if e = 'b' then (parseStringBody t2).map (fun p => ('\x08' :: p.1, p.2))
        else if e = 'f' then (parseStringBody t2).map (fun p => ('\x0c' :: p.1, p.2))
        else if e = 'n' then (parseStringBody t2).map (fun p => ('\n' :: p.1, p.2))
        else if e = 'r' then (parseStringBody t2).map (fun p => ('\r' :: p.1, p.2))
        else if e = 't' then (parseStringBody t2).map (fun p => ('\t' :: p.1, p.2))
        else if e = 'u' then
          match t2 with
          | h1 :: h2 :: h3 :: h4 :: t3 =>
            match hexVal h1, hexVal h2, hexVal h3, hexVal h4 with
            | some a, some b, some c2, some d =>
              let n := ((a * 16 + b) * 16 + c2) * 16 + d
              if n < 55296 then (parseStringBody t3).map (fun p => (Char.ofNat n :: p.1, p.2))
              else none
            | _, _, _, _ => none
          | _ => none
        else none
    else if c.toNat < 32 then none
    else (parseStringBody t).map (fun p => (c :: p.1, p.2))

def parseDigitsAux : Nat → Str → Nat × Str
  | acc, [] => (acc, [])
  | acc, c :: t =>
    match digitVal c with
    | some d => parseDigitsAux (acc * 10 + d) t
    | none => (acc, c :: t)

def parseDigits : Str → Option (Nat × Str)
  | [] => none
  | c :: t =>
    match digitVal c with
    | some d => some (parseDigitsAux d t)
    | none => none

mutual
def parseValue : Nat → Str → Option (Json × Str)
  | 0, _ => none
  | f+1, cs =>
    match skipWs cs with
    | [] => none
    | c :: t =>
      if c = '{' then
        match skipWs t with
        | '}' :: r => some (.obj .nil, r)
        | t' => (parseMembers f t').map (fun p => (Json.obj p.1, p.2))
      else if c = '[' then
        match skipWs t with
        | ']' :: r => some (.arr .nil, r)
        | t' => (parseElems f t').map (fun p => (Json.arr p.1, p.2))
      else if c = '"' then (parseStringBody t).map (fun p => (Json.str p.1, p.2))
      else if c = 't' then
        if (chars "rue").isPrefixOf t then some (.bool true, t.drop 3) else none
      else if c = 'f' then
        if (chars "alse").isPrefixOf t then some (.bool false, t.drop 4) else none
      else if c = 'n' then
        if (chars "ull").isPrefixOf t then some (.null, t.drop 3) else none
      else if c = '-' then
        (parseDigits t).map (fun p => (Json.num (-(p.1 : Int)), p.2))
      else
        (parseDigits (c :: t)).map (fun p => (Json.num (p.1 : Int), p.2))
def parseMembers : Nat → Str → Option (JObj × Str)
  | 0, _ => none
  | f+1, cs =>
    match cs with
    | [] => none
    | c :: t =>
      if c = '"' then
        match parseStringBody t with
        | none => none
        | some (k, r) =>
          match skipWs r with
          | ':' :: r2 =>
            match parseValue f r2 with
            | none => none
            | some (v, r3) =>
              match skipWs r3 with
              | ',' :: r4 => (parseMembers f (skipWs r4)).map (fun p => (JObj.cons k v p.1, p.2))
              | '}' :: r4 => some (.cons k v .nil, r4)
              | _ => none
          | _ => none
      else none
def parseElems : Nat → Str → Option (JArr × Str)
  | 0, _ => none
  | f+1, cs =>
    match parseValue f cs with
    | none => none
    | some (v, r) =>
      match skipWs r with
      | ',' :: r2 => (parseElems f r2).map (fun p => (JArr.cons v p.1, p.2))
      | ']' :: r2 => some (.cons v .nil, r2)
      | _ => none
end

/-- Embedding of `JSON.parse`: `none` models a thrown `SyntaxError`. -/
def jsonParse (cs : Str) : Option Json :=
  match parseValue (cs.length + 1) cs with
  | some (v, r) => if skipWs r = [] then some v else none
  | none => none

mutual
/-- Fuel sufficient for `parseValue` on the serialisation of a value. -/
def jfuel : Json → Nat
  | .null => 1
  | .bool _ => 1
  | .num _ => 1
  | .str _ => 1
  | .arr xs => jfuelA xs + 1
  | .obj kvs => jfuelO kvs + 1
def jfuelA : JArr → Nat
  | .nil => 0
  | .cons x xs => max (jfuel x) (jfuelA xs) + 1
def jfuelO : JObj → Nat
  | .nil => 0
  | .cons _ v kvs => max (jfuel v) (jfuelO kvs) + 1
end

/-! ### Tool protocol (dist/adapter/tool-protocol.js) -/

def openTag : Str := chars "<tool_call>"
def closeTag : Str := chars "</tool_call>"

/-- Skip leading `\s*`, then require the literal `pat`; return the suffix
after it.  This is the deterministic residue of the regex `\s*pat` when
`pat` starts with a non-whitespace character. -/
def stripAfterWs (pat : Str) : Str → Option Str
  | [] => if pat.isPrefixOf ([] : Str) then some ([] : Str) else none
  | c :: t =>
    if isJsWs c then stripAfterWs pat t
    else if pat.isPrefixOf (c :: t) then some ((c :: t).drop pat.length) else none

/-- Lazy search for the earliest `\}` followed by `\s*</tool_call>`.
Input: the characters after the opening brace.  Returns the group interior
up to and including that brace, and the remainder after the close tag. -/
def closeSearch : Str → Option (Str × Str)
  | [] => none
  | c :: t =>
    if c = '}' then
      match stripAfterWs closeTag t with
      | some rest => some ([c], rest)
      | none =>
        match closeSearch t with
        | some (g, r) => some (c :: g, r)
        | none => none
    else
      match closeSearch t with
      | some (g, r) => some (c :: g, r)
      | none => none

/-- One `regex.exec` loop of
`/<tool_call>\s*(\{[\s\S]*?\})\s*<\/tool_call>/g`, returning the captured
group (the `{...}` body) of each successive match. -/
def scanBlocksF : Nat → Str → List Str
  | 0, _ => []
  | f+1, cs =>
    match dropToSub openTag cs with
    | none => []
    | some suf =>
      match trimWsL (suf.drop openTag.length) with
      | c :: t =>
        if c = '{' then
          match closeSearch t with
          | some (g, r) => ('{' :: g) :: scanBlocksF f r
          | none => scanBlocksF f (suf.drop 1)
        else scanBlocksF f (suf.drop 1)
      | [] => scanBlocksF f (suf.drop 1)

def scanBlocks (cs : Str) : List Str := scanBlocksF (cs.length + 1) cs

/-- The global replace `/<tool_call>[\s\S]*?<\/tool_call>/g` with `""`:
each `<tool_call>` with a following `</tool_call>` is removed through the
earliest such close tag. -/
def removeBlocksF : Nat → Str → Str
  | 0, cs => cs
  | f+1, cs =>
    match splitSub openTag cs with
    | none => cs
    | some (pre, afterOpen) =>
      match splitSub closeTag afterOpen with
      | none => cs
      | some (_, afterClose) => pre ++ removeBlocksF f afterClose

def removeBlocks (cs : Str) : Str := removeBlocksF (cs.length + 1) cs

/-- An OpenAI-format tool call as assembled by `parseToolCalls`.  `id` is a
JSON value (the parsed `id` field is used as-is when truthy); `name` is the
parsed `name` field (`none` = `undefined`); `arguments` is the canonical
argument string (`none` when the `arguments` field was absent). -/
structure PToolCall where
  id : Json
  name : Option Json
  arguments : Option Str
  deriving DecidableEq

def mintId (sup : Nat → Str) (k : Nat) : Str := chars "call_" ++ sup k

/-- Assemble tool calls from the captured bodies: parse each body, skipping
bodies that fail to parse; take `id` from the body when truthy, otherwise
mint a fresh id; re-serialise non-string `arguments` compactly. -/
def buildCallsAux (sup : Nat → Str) : Nat → List Str → List PToolCall
  | _, [] => []
  | k, b :: bs =>
    match jsonParse b with
    | none => buildCallsAux sup k bs
    | some j =>
      let idv := jgetJ j (chars "id")
      let minted := !(jtruthy idv)
      let tc : PToolCall :=
        { id := if jtruthy idv then idv.getD .null else .str (mintId sup k)
          name := jgetJ j (chars "name")
          arguments :=
            match jgetJ j (chars "arguments") with
            | some (.str s) => some s
            | some v => some (serJ none v)
            | none => none }
      tc :: buildCallsAux sup (if minted then k + 1 else k) bs

structure ParsedCalls where
  toolCalls : List PToolCall
  textContent : Option Str
  deriving DecidableEq

/-- Embedding of `parseToolCalls` (tool-protocol.js lines 64-94). -/
def parseToolCalls (sup : Nat → Str) (text : Str) : ParsedCalls :=
  { toolCalls := buildCallsAux sup 0 (scanBlocks text)
    textContent :=
      let t := trimWs (removeBlocks text)
      if t.isEmpty then none else some t }

/-! ### OpenAI request model and prompt synthesis (dist/adapter/openai-to-cli.js) -/

structure CPart where
  ctype : Str
  text : Str
  deriving DecidableEq

inductive OContent where
  | str (s : Str)
  | parts (ps : List CPart)
  | obj (j : Json)
  deriving DecidableEq

structure ReqToolCall where
  id : Str
  name : Str
  arguments : Str
  deriving DecidableEq

inductive OMessage where
  | system (content : OContent)
  | user (content : OContent)
  | assistant (content : Option OContent) (tool_calls : List ReqToolCall)
  | tool (tool_call_id : Option Str) (content : OContent)
  | other
  deriving DecidableEq

structure ToolFn where
  name : Str
  description : Option Str
  parameters : Option Json
  deriving DecidableEq

structure ToolDef where
  function : ToolFn
  deriving DecidableEq

structure ORequest where
  messages : List OMessage
  tools : Option (List ToolDef)
  tool_choice : Option Str
  model : Str
  user : Option Str
  stream : Bool
  deriving DecidableEq

/-- `extractText` (openai-to-cli.js lines 48-62).  String content is
returned verbatim; part lists keep `text`-typed parts joined by newlines;
objects yield their `text` field when it is a non-empty string, else their
compact serialisation; `null` content stringifies to `"null"`. -/
def extractText : OContent → Str
  | .str s => s
  | .parts ps =>
      List.intercalate (chars "\n")
        ((ps.filter (fun p => p.ctype = chars "text")).map (fun p => p.text))
  | .obj j =>
      match jgetJ j (chars "text") with
      | some (.str s) => if s.isEmpty then serJ none j else s
      | _ => serJ none j

def extractTextOpt : Option OContent → Str
  | none => chars "null"
  | some c => extractText c

/-- JS truthiness of an optional message content value. -/
def contentTruthy : Option OContent → Bool
  | none => false
  | some (.str s) => !s.isEmpty
  | some (.parts _) => true
  | some (.obj _) => true

def MODEL_MAP (m : Str) : Option Str :=
  if m = chars "claude-opus-4" then some (chars "opus")
  else if m = chars "claude-opus-4-6" then some (chars "opus")
  else if m = chars "claude-sonnet-4" then some (chars "sonnet")
  else if m = chars "claude-sonnet-4-5" then some (chars "sonnet")
  else if m = chars "claude-haiku-4" then some (chars "haiku")
  else if m = chars "claude-code-cli/claude-opus-4" then some (chars "opus")
  else if m = chars "claude-code-cli/claude-opus-4-6" then some (chars "opus")
  else if m = chars "claude-code-cli/claude-sonnet-4" then some (chars "sonnet")
  else if m = chars "claude-code-cli/claude-haiku-4" then some (chars "haiku")
  else if m = chars "openai/claude-opus-4" then some (chars "opus")
  else if m = chars "openai/claude-opus-4-6" then some (chars "opus")
  else if m = chars "openai/claude-sonnet-4" then some (chars "sonnet")
  else if m = chars "openai/claude-sonnet-4-5" then some (chars "sonnet")
  else if m = chars "openai/claude-haiku-4" then some (chars "haiku")
  else if m = chars "opus" then some (chars "opus")
  else if m = chars "sonnet" then some (chars "sonnet")
  else if m = chars "haiku" then some (chars "haiku")
  else none

/-- The regex replace `model.replace(/^(claude-code-cli|openai)\//, "")`:
exactly the two listed provider markers are stripped, first alternative
first, at most once, anchored at the start. -/
def stripProvider (m : Str) : Str :=
  if (chars "claude-code-cli/").isPrefixOf m then m.drop 16
  else if (chars "openai/").isPrefixOf m then m.drop 7
  else m

/-- Embedding of `extractModel` (openai-to-cli.js lines 31-43). -/
def extractModel (m : Str) : Str :=
  match MODEL_MAP m with
  | some a => a
  | none =>
    match MODEL_MAP (stripProvider m) with
    | some a => a
    | none => chars "opus"

/-- Embedding of `buildToolInstructions` (tool-protocol.js lines 23-54). -/
def toolDefText (t : ToolDef) : Str :=
  let params :=
    if jtruthy t.function.parameters then serJ (some 0) (t.function.parameters.getD .null)
    else chars "\x7b\x7d"
  let desc :=
    match t.function.description with
    | some d => d
    | none => []
  chars "<tool>\n<name>" ++ t.function.name ++ chars "</name>\n<description>" ++ desc ++
    chars "</description>\n<parameters>" ++ params ++ chars "</parameters>\n</tool>"

def buildToolInstructions (ts : List ToolDef) : Str :=
  let defs := List.intercalate (chars "\n") (ts.map toolDefText)
  chars "<tools_available>\n" ++ defs ++ chars "\n</tools_available>\n\n" ++
  chars "<tool_call_instructions>\n" ++
  chars "You have access to the tools listed above. When you need to use a tool, output a tool call using the following XML format:\n\n" ++
  chars "<tool_call>\n\x7b\"name\": \"tool_name\", \"arguments\": \x7b\"param1\": \"value1\"\x7d\x7d\n</tool_call>\n\n" ++
  chars "Rules:\n" ++
  chars "- You may make multiple tool calls in a single response by using multiple <tool_call> blocks.\n" ++
  chars "- The JSON inside <tool_call> must have \"name\" (string) and \"arguments\" (object) fields.\n" ++
  chars "- Only call tools that are listed in <tools_available>.\n" ++
  chars "- If you don\x27t need to use any tool, respond normally without <tool_call> tags.\n" ++
  chars "- When making a tool call, you may include brief text before the tool call(s) to explain your reasoning, but do not include text after the tool call(s).\n" ++
  chars "</tool_call_instructions>"

/-- Content of a `role:"tool"` message as rendered by `formatToolResults`. -/
def toolMsgContent : OContent → Str
  | .str s => s
  | .parts ps =>
      serJ none (.arr (ps.foldr
        (fun p acc => JArr.cons
          (.obj (.cons (chars "type") (.str p.ctype) (.cons (chars "text") (.str p.text) .nil)))
          acc) .nil))
  | .obj j => serJ none j

def toolResultEntry (id : Option Str) (c : OContent) : Str :=
  let idText := match id with
    | some s => if s.isEmpty then chars "unknown" else s
    | none => chars "unknown"
  chars "<tool_result>\n<tool_call_id>" ++ idText ++ chars "</tool_call_id>\n<output>" ++
    toolMsgContent c ++ chars "</output>\n</tool_result>"

/-- Embedding of `formatToolResults` (tool-protocol.js lines 100-112). -/
def formatToolResults (msgs : List OMessage) : Str :=
  let entries := msgs.map (fun m =>
    match m with
    | .tool id c => toolResultEntry id c
    | _ => toolResultEntry none (.str (chars "undefined")))
  chars "<tool_results>\n" ++ List.intercalate (chars "\n") entries ++ chars "\n</tool_results>"

/-- The pretty-printed `{id, name, arguments}` JSON object injected for one
reconstructed tool call. -/
def reqCallJson (tc : ReqToolCall) (args : Json) : Json :=
  .obj (.cons (chars "id") (.str tc.id)
    (.cons (chars "name") (.str tc.name)
      (.cons (chars "arguments") args .nil)))

/-- One `<tool_call>` block of the reconstructed assistant turn; `none`
models the `JSON.parse` throw on an unparseable `arguments` string. -/
def serReqCall (tc : ReqToolCall) : Option Str :=
  (jsonParse tc.arguments).map (fun args =>
    openTag ++ '\n' :: serJ (some 0) (reqCallJson tc args) ++ '\n' :: closeTag ++ ['\n'])

def serReqCalls : List ReqToolCall → Option Str
  | [] => some []
  | tc :: tcs =>
    match serReqCall tc, serReqCalls tcs with
    | some a, some b => some (a ++ b)
    | _, _ => none

/-- The `<previous_response>` part for an assistant message
(openai-to-cli.js lines 94-115). -/
def assistantPart (content : Option OContent) (tcs : List ReqToolCall) : Option Str :=
  if tcs.length > 0 then
    match serReqCalls tcs with
    | none => none
    | some calls =>
      let base := if contentTruthy content then extractTextOpt content ++ chars "\n" else []
      some (chars "<previous_response>\n" ++ trimWs (base ++ calls) ++
        chars "\n</previous_response>\n")
  else
    some (chars "<previous_response>\n" ++ extractTextOpt content ++
      chars "\n</previous_response>\n")

def isToolMsg : OMessage → Bool
  | .tool _ _ => true
  | _ => false

/-- The message-to-part loop of `messagesToPrompt`, with consecutive `tool`
messages collapsed into one `<tool_results>` block.  Fuelled so that the
function is structural; fuel is instantiated with the message count. -/
def promptPartsF (fuel : Nat) (msgs : List OMessage) : Option (List Str) :=
  match fuel, msgs with
  | _, [] => some []
  | 0, _ :: _ => some []
  | f+1, m :: rest =>
    match m with
    | .system c =>
        (promptPartsF f rest).map (fun ps =>
          (chars "<system>\n" ++ extractText c ++ chars "\n</system>\n") :: ps)
    | .user c => (promptPartsF f rest).map (fun ps => extractText c :: ps)
    | .assistant c tcs =>
        match assistantPart c tcs, promptPartsF f rest with
        | some a, some ps => some (a :: ps)
        | _, _ => none
    | .tool id c =>
        let grabbed := rest.takeWhile isToolMsg
        let rest' := rest.dropWhile isToolMsg
        (promptPartsF f rest').map (fun ps =>
          formatToolResults (OMessage.tool id c :: grabbed) :: ps)
    | .other => promptPartsF f rest

def promptParts (msgs : List OMessage) : Option (List Str) :=
  promptPartsF (msgs.length + 1) msgs

/-- Embedding of `messagesToPrompt` (openai-to-cli.js lines 72-129);
`none` models the propagated `JSON.parse` throw. -/
def messagesToPrompt (msgs : List OMessage) (tools : Option (List ToolDef)) : Option Str :=
  (promptParts msgs).map (fun ps =>
    let ps' :=
      match tools with
      | some ts => if ts.length > 0 then buildToolInstructions ts :: ps else ps
      | none => ps
    trimWs (List.intercalate (chars "\n") ps'))

/-- `hasTools` (tool-protocol.js lines 13-16). -/
def hasTools (r : ORequest) : Bool :=
  match r.tools with
  | some ts => ts.length > 0 && r.tool_choice ≠ some (chars "none")
  | none => false

structure CliInput where
  prompt : Str
  model : Str
  sessionId : Option Str
  hasTools : Bool
  deriving DecidableEq

/-- Embedding of `openaiToCli` (openai-to-cli.js lines 133-141). -/
def openaiToCli (r : ORequest) : Option CliInput :=
  let tools := if hasTools r then r.tools else none
  (messagesToPrompt r.messages tools).map (fun p =>
    { prompt := p
      model := extractModel r.model
      sessionId := r.user
      hasTools := tools.isSome })

/-! ### Response building (dist/adapter/cli-to-openai.js) -/

/-- `normalizeModelName` (cli-to-openai.js lines 88-96). -/
def normalizeModelName (m : Str) : Str :=
  if occurs (chars "opus") m then chars "claude-opus-4"
  else if occurs (chars "sonnet") m then chars "claude-sonnet-4"
  else if occurs (chars "haiku") m then chars "claude-haiku-4"
  else m

/-- The fields of the upstream `result` event the response builders read.
`modelKeys` models `Object.keys(result.modelUsage)` (`none` = field
absent); `usage` models the optional token-count pair. -/
structure CliResult where
  result : Str
  usage : Option (Nat × Nat)
  modelKeys : Option (List Str)
  deriving DecidableEq

def modelFromResult (r : CliResult) : Str :=
  match r.modelKeys with
  | some ks => ks.headD []
  | none => chars "claude-sonnet-4"

structure Usage3 where
  prompt_tokens : Nat
  completion_tokens : Nat
  total_tokens : Nat
  deriving DecidableEq

structure ChatMsg where
  role : Str
  content : Option Str
  tool_calls : Option (List PToolCall)
  deriving DecidableEq

structure Completion where
  id : Str
  model : Str
  created : Nat
  message : ChatMsg
  finish_reason : Str
  usage : Usage3
  deriving DecidableEq

def usageOf (r : CliResult) : Usage3 :=
  match r.usage with
  | some (i, o) => ⟨i, o, i + o⟩
  | none => ⟨0, 0, 0⟩

/-- `cliResultToOpenai` (cli-to-openai.js lines 57-83). -/
def cliResultToOpenai (r : CliResult) (reqId : Str) (now : Nat) : Completion :=
  { id := chars "chatcmpl-" ++ reqId
    model := normalizeModelName (modelFromResult r)
    created := now
    message := { role := chars "assistant", content := some r.result, tool_calls := none }
    finish_reason := chars "stop"
    usage := usageOf r }

/-- `cliResultToOpenaiWithTools` (cli-to-openai.js lines 101-135). -/
def cliResultToOpenaiWithTools (sup : Nat → Str) (r : CliResult) (reqId : Str)
    (now : Nat) : Completion :=
  let pc := parseToolCalls sup r.result
  if pc.toolCalls.length > 0 then
    { id := chars "chatcmpl-" ++ reqId
      model := normalizeModelName (modelFromResult r)
      created := now
      message := { role := chars "assistant", content := pc.textContent,
                   tool_calls := some pc.toolCalls }
      finish_reason := chars "tool_calls"
      usage := usageOf r }
  else cliResultToOpenai r reqId now

structure DeltaTC where
  index : Nat
  id : Json
  name : Option Json
  arguments : Option Str
  deriving DecidableEq

structure Delta where
  role : Option Str
  content : Option Str
  tool_calls : Option (List DeltaTC)
  deriving DecidableEq

structure Chunk where
  id : Str
  model : Str
  created : Nat
  delta : Delta
  finish_reason : Option Str
  deriving DecidableEq

/-- `createDoneChunk` (cli-to-openai.js lines 39-53). -/
def createDoneChunk (reqId model : Str) (now : Nat) : Chunk :=
  { id := chars "chatcmpl-" ++ reqId
    model := normalizeModelName model
    created := now
    delta := ⟨none, none, none⟩
    finish_reason := some (chars "stop") }

def toolCallChunksAux (reqId model : Str) (now : Nat) (hasText : Bool) :
    Nat → List PToolCall → List Chunk
  | _, [] => []
  | i, tc :: rest =>
    { id := chars "chatcmpl-" ++ reqId
      model := model
      created := now
      delta :=
        { role := if i = 0 && !hasText then some (chars "assistant") else none
          content := none
          tool_calls := some [⟨i, tc.id, tc.name, tc.arguments⟩] }
      finish_reason := none } :: toolCallChunksAux reqId model now hasText (i + 1) rest

/-- `buildToolCallChunks` (cli-to-openai.js lines 141-202). -/
def buildToolCallChunks (tcs : List PToolCall) (textContent : Option Str)
    (reqId model : Str) (now : Nat) : List Chunk :=
  let m := normalizeModelName model
  let textChunks : List Chunk :=
    if strTruthy textContent then
      [{ id := chars "chatcmpl-" ++ reqId, model := m, created := now
         delta := ⟨some (chars "assistant"), some (textContent.getD []), none⟩
         finish_reason := none }]
    else []
  textChunks ++ toolCallChunksAux reqId m now (strTruthy textContent) 0 tcs ++
    [{ id := chars "chatcmpl-" ++ reqId, model := m, created := now
       delta := ⟨none, none, none⟩
       finish_reason := some (chars "tool_calls") }]

/-! ### Route handlers (dist/server/routes.js) -/

structure ErrBody where
  message : Str
  etype : Str
  deriving DecidableEq

/-- One JSON body handed to the Express response object. -/
inductive BodyWrite where
  | errJson (status : Nat) (e : ErrBody)
  | okJson (c : Completion)
  deriving DecidableEq

structure NSState where
  finalResult : Option CliResult
  writes : List BodyWrite
  headersSent : Bool
  deriving DecidableEq

def nsInit : NSState := ⟨none, [], false⟩

inductive CliEvent where
  | contentDelta (text : Str)
  | assistantEv (model : Str)
  | resultEv (r : CliResult)
  | errorEv (msg : Str)
  | closeEv (code : Int)
  deriving DecidableEq

def exitErrBody (code : Int) : ErrBody :=
  ⟨chars "Claude CLI exited with code " ++ serInt code ++ chars " without response",
   chars "server_error"⟩

/-- Event handling of `handleNonStreamingResponse` (routes.js lines
164-213).  Every `res.status(...).json(...)` / `res.json(...)` call is
recorded as a body write; note that the `finalResult` branch of the close
handler performs its write without consulting `headersSent`. -/
def nonStreamingStep (reqId : Str) (now : Nat) (s : NSState) : CliEvent → NSState
  | .resultEv r => { s with finalResult := some r }
  | .errorEv m =>
      { s with writes := s.writes ++ [.errJson 500 ⟨m, chars "server_error"⟩]
               headersSent := true }
  | .closeEv code =>
      match s.finalResult with
      | some r =>
          { s with writes := s.writes ++ [.okJson (cliResultToOpenai r reqId now)]
                   headersSent := true }
      | none =>
          if s.headersSent then s
          else { s with writes := s.writes ++ [.errJson 500 (exitErrBody code)]
                        headersSent := true }
  | _ => s

def runNonStreaming (reqId : Str) (now : Nat) (evs : List CliEvent) : NSState :=
  evs.foldl (nonStreamingStep reqId now) nsInit

/-- `const responseText = finalResult?.result || bufferedText` (routes.js
line 269). -/
def responseTextOf (deltas : List Str) (finalResult : Option CliResult) : Str :=
  match finalResult with
  | some r => if r.result.isEmpty then concatStrs deltas else r.result
  | none => concatStrs deltas

inductive ToolAwareOut where
  | err500 (e : ErrBody)
  | sse (chunks : List Chunk)
  | json (c : Completion)
  deriving DecidableEq

structure ToolAwareRes where
  out : ToolAwareOut
  parsedText : Option Str
  deriving DecidableEq

/-- The close handler of `handleToolAwareResponse` (routes.js lines
265-369), as a function of the events observed before `close`.
`parsedText` records the argument of the `parseToolCalls` call on line 284
(`none` when the handler returns before reaching it). -/
def handleToolAwareClose (stream : Bool) (sup : Nat → Str) (deltas : List Str)
    (finalResult : Option CliResult) (code : Int) (reqId lastModel : Str)
    (now : Nat) : ToolAwareRes :=
  let responseText := responseTextOf deltas finalResult
  if responseText.isEmpty then ⟨.err500 (exitErrBody code), none⟩
  else
    let pc := parseToolCalls sup responseText
    if stream then
      let chunks :=
        if pc.toolCalls.length > 0 then
          buildToolCallChunks pc.toolCalls pc.textContent reqId lastModel now
        else
          [{ id := chars "chatcmpl-" ++ reqId, model := lastModel, created := now
             delta := ⟨some (chars "assistant"), some responseText, none⟩
             finish_reason := none },
           createDoneChunk reqId lastModel now]
      ⟨.sse chunks, some responseText⟩
    else
      match finalResult with
      | some r => ⟨.json (cliResultToOpenaiWithTools sup r reqId now), some responseText⟩
      | none =>
        if pc.toolCalls.length > 0 then
          ⟨.json
            { id := chars "chatcmpl-" ++ reqId
              model := lastModel
              created := now
              message := { role := chars "assistant", content := pc.textContent,
                           tool_calls := some pc.toolCalls }
              finish_reason := chars "tool_calls"
              usage := ⟨0, 0, 0⟩ }, some responseText⟩
        else
          ⟨.json
            { id := chars "chatcmpl-" ++ reqId
              model := lastModel
              created := now
              message := { role := chars "assistant", content := some responseText,
                           tool_calls := none }
              finish_reason := chars "stop"
              usage := ⟨0, 0, 0⟩ }, some responseText⟩

/-- The finish_reason carried by an outcome: for SSE the one of the last
chunk, for a JSON body the one of its single choice. -/
def finishOf : ToolAwareOut → Option Str
  | .err500 _ => none
  | .sse chunks => (chunks.getLast?).bind (fun c => c.finish_reason)
  | .json c => some c.finish_reason

/-- Outcome of `handleChatCompletions` (routes.js lines 16-59) up to the
choice of dispatcher path: 400 validation failure, 500 from the catch-all
(a throw inside `openaiToCli`), or dispatch with the translated input. -/
inductive HandlerOut where
  | invalidMessages
  | serverErr
  | dispatched (toolsPath : Bool) (streaming : Bool) (cli : CliInput)
  deriving DecidableEq

def handleChatCompletions (r : ORequest) : HandlerOut :=
  if r.messages.isEmpty then .invalidMessages
  else
    match openaiToCli r with
    | none => .serverErr
    | some cli => .dispatched cli.hasTools r.stream cli

/-! ### Subprocess driver termination (dist/subprocess/manager.js) -/

/-- Driver state after a successful `start`: the timeout timer is armed,
no terminate signal has been sent. -/
structure SubprocState where
  started : Bool
  isKilled : Bool
  timerArmed : Bool
  signalsSent : Nat
  deriving DecidableEq

def startedState : SubprocState := ⟨true, false, true, 0⟩

inductive KAction where
  | kill
  | timeoutFire
  deriving DecidableEq

/-- `kill()` (manager.js lines 357-363) and the timeout callback
(manager.js lines 240-246).  `kill` is guarded by `!isKilled && process`;
it clears the timer and sends one signal.  The timeout callback can only
run while the timer is armed; it checks `!isKilled`, sends one signal and
marks the driver killed (the timer is spent either way). -/
def kstep (s : SubprocState) : KAction → SubprocState
  | .kill =>
      if !s.isKilled && s.started then
        { s with isKilled := true, timerArmed := false, signalsSent := s.signalsSent + 1 }
      else s
  | .timeoutFire =>
      if s.timerArmed then
        if !s.isKilled then
          { s with isKilled := true, timerArmed := false, signalsSent := s.signalsSent + 1 }
        else { s with timerArmed := false }
      else s

def krun (s : SubprocState) (as : List KAction) : SubprocState := as.foldl kstep s

/-! ### Session manager (dist/session/manager.js) -/

structure SessionEntry where
  clawdbotId : Str
  claudeSessionId : Str
  createdAt : Nat
  lastUsedAt : Nat
  model : Str
  deriving DecidableEq

def sessGet (st : List (Str × SessionEntry)) (k : Str) : Option SessionEntry :=
  match st with
  | [] => none
  | (k', e) :: rest => if k' = k then some e else sessGet rest k

def sessUpd (st : List (Str × SessionEntry)) (k : Str) (e : SessionEntry) :
    List (Str × SessionEntry) :=
  match st with
  | [] => []
  | (k', e') :: rest => if k' = k then (k', e) :: rest else (k', e') :: sessUpd rest k e

/-- `SessionManager.getOrCreate` (manager.js lines 45-67); `now` is the
`Date.now()` reading, `fresh` the uuid that would be minted. -/
def getOrCreate (st : List (Str × SessionEntry)) (id : Str) (model : Str)
    (now : Nat) (fresh : Str) : Str × List (Str × SessionEntry) :=
  match sessGet st id with
  | some e =>
      (e.claudeSessionId, sessUpd st id { e with lastUsedAt := now, model := model })
  | none =>
      (fresh, st ++ [(id, ⟨id, fresh, now, now, model⟩)])

/-! ### Predicates used in theorem statements and proofs -/

def allWsB (cs : Str) : Bool := cs.all isJsonWs

def digitFreeHead : Str → Bool
  | [] => true
  | c :: _ => !(digitVal c).isSome

/-- No occurrence of `pat` starts inside `xs` when `ys` follows it. -/
def SafePre (pat xs ys : Str) : Prop :=
  ∀ n, n < xs.length → pat.isPrefixOf (xs.drop n ++ ys) = false

/-- No nonempty suffix of `xs` matches against `pat` in either direction;
a decidable sufficient condition for `SafePre pat xs ys` for every `ys`. -/
def noHoldB (pat xs : Str) : Bool :=
  (List.range xs.length).all
    (fun n => !((xs.drop n).isPrefixOf pat || pat.isPrefixOf (xs.drop n)))

/-- `pat` has no nonempty proper border (no self-overlap). -/
def borderFreeB (pat : Str) : Bool :=
  (List.range pat.length).all (fun n => decide (n = 0) || !((pat.drop n).isPrefixOf pat))

/-- The serialised JSON body of one reconstructed `<tool_call>` block (the
capture the scanner recovers on a faithful round trip). -/
def blockBody (tc : ReqToolCall) : Str :=
  serJ (some 0) (reqCallJson tc ((jsonParse tc.arguments).getD .null))

/-- One reconstructed `<tool_call>` block without its trailing newline. -/
def blockOf (tc : ReqToolCall) : Str :=
  openTag ++ ('\n' :: (blockBody tc ++ ('\n' :: closeTag)))

/-- The concatenation of the reconstructed blocks of an assistant message,
each followed by a newline (the shape of `serReqCalls`' output). -/
def callsCat : List ReqToolCall → Str
  | [] => []
  | tc :: tcs => blockOf tc ++ ('\n' :: callsCat tcs)

/-- `callsCat` with the final newline removed (the shape left by the right
trim inside `assistantPart`). -/
def callsCat' : List ReqToolCall → Str
  | [] => []
  | [tc] => blockOf tc
  | tc :: tcs => blockOf tc ++ ('\n' :: callsCat' tcs)

/-! ## Theorems

### Generic string groundwork -/

theorem isPrefixOf_self_append (p r : Str) : p.isPrefixOf (p ++ r) = true := by
  induction p with
  | nil => simp [List.isPrefixOf]
  | cons c t ih => simp [List.isPrefixOf, ih]

theorem eq_append_drop_of_isPrefixOf {p x : Str} (h : p.isPrefixOf x = true) :
    x = p ++ x.drop p.length := by
  obtain ⟨t, rfl⟩ := List.isPrefixOf_iff_prefix.mp h
  simp

theorem isPrefixOf_length_le {p x : Str} (h : p.isPrefixOf x = true) : p.length ≤ x.length := by
  exact (List.isPrefixOf_iff_prefix.mp h).length_le

theorem isPrefixOf_trans {p q x : Str} (h1 : p.isPrefixOf q = true)
    (h2 : q.isPrefixOf x = true) : p.isPrefixOf x = true := by
  exact List.isPrefixOf_iff_prefix.mpr
    ((List.isPrefixOf_iff_prefix.mp h1).trans (List.isPrefixOf_iff_prefix.mp h2))

theorem isPrefixOf_of_append_right {p u v : Str} (h : p.isPrefixOf (u ++ v) = true)
    (hl : p.length ≤ u.length) : p.isPrefixOf u = true := by
  rw [List.isPrefixOf_iff_prefix] at h ⊢
  exact List.prefix_of_prefix_length_le h (List.prefix_append u v) hl

theorem mem_of_isPrefixOf_append {p u : Str} {c : Char} {w : Str}
    (h : p.isPrefixOf (u ++ c :: w) = true) (hl : u.length < p.length) : c ∈ p := by
  rw [List.isPrefixOf_iff_prefix] at h
  have hp : p = (u ++ c :: w).take p.length := List.prefix_iff_eq_take.mp h
  rw [hp, List.take_append_eq_append_take]
  have : p.length - u.length = (p.length - u.length - 1) + 1 := by omega
  rw [this]
  simp

theorem isPrefixOf_append_of_isPrefixOf {p u v : Str} (h : p.isPrefixOf u = true) :
    p.isPrefixOf (u ++ v) = true := by
  rw [List.isPrefixOf_iff_prefix] at h ⊢
  exact h.trans (List.prefix_append u v)

theorem skipWs_cons_of_ws {c : Char} (t : Str) (h : isJsonWs c = true) :
    skipWs (c :: t) = skipWs t := by
  simp [skipWs, List.dropWhile_cons, h]

theorem skipWs_cons_of_not_ws {c : Char} (t : Str) (h : isJsonWs c = false) :
    skipWs (c :: t) = c :: t := by
  simp [skipWs, List.dropWhile_cons, h]

theorem skipWs_append_of_allWs {pre : Str} (z : Str) (h : allWsB pre = true) :
    skipWs (pre ++ z) = skipWs z := by
  induction pre with
  | nil => simp
  | cons c t ih =>
    simp only [allWsB, List.all_cons, Bool.and_eq_true] at h
    rw [List.cons_append, skipWs_cons_of_ws _ h.1]
    exact ih (by simp [allWsB, h.2])

theorem allWsB_spacesN (n : Nat) : allWsB (spacesN n) = true := by
  induction n with
  | zero => rfl
  | succ n ih => simp [spacesN, allWsB] at ih ⊢; exact ⟨by decide, ih⟩

theorem skipWs_spacesN_append (n : Nat) (z : Str) :
    skipWs (spacesN n ++ z) = skipWs z :=
  skipWs_append_of_allWs z (allWsB_spacesN n)

theorem occurs_of_isPrefixOf {pat x : Str} (h : pat.isPrefixOf x = true) :
    occurs pat x = true := by
  cases x with
  | nil => simpa [occurs] using h
  | cons c t => simp [occurs, h]

theorem occurs_cons_of_tail {pat : Str} {c : Char} {t : Str} (h : occurs pat t = true) :
    occurs pat (c :: t) = true := by
  simp [occurs, h]

theorem occurs_append_right {pat x y : Str} (h : occurs pat y = true) :
    occurs pat (x ++ y) = true := by
  induction x with
  | nil => simpa
  | cons c t ih => exact occurs_cons_of_tail ih

theorem occurs_of_drop {pat x : Str} {n : Nat} (h : pat.isPrefixOf (x.drop n) = true) :
    occurs pat x = true := by
  induction x generalizing n with
  | nil => simp at h; simpa [occurs] using h
  | cons c t ih =>
    cases n with
    | zero => simp at h; simp [occurs, h]
    | succ m =>
      simp only [List.drop_succ_cons] at h
      exact occurs_cons_of_tail (ih h)

theorem not_occurs_tail {pat : Str} {c : Char} {t : Str} (h : occurs pat (c :: t) = false) :
    occurs pat t = false := by
  by_contra hc
  simp only [Bool.not_eq_false] at hc
  rw [occurs_cons_of_tail hc] at h
  exact absurd h (by simp)

theorem occurs_dropWhile_le {pat : Str} (p : Char → Bool) {x : Str}
    (h : occurs pat x = false) : occurs pat (x.dropWhile p) = false := by
  induction x with
  | nil => simpa using h
  | cons c t ih =>
    rw [List.dropWhile_cons]
    by_cases hp : p c = true
    · simp only [hp, if_true]
      exact ih (not_occurs_tail h)
    · simp only [hp]
      simpa using h

/-! ### Decimal digits -/

theorem digitVal_digitChar {d : Nat} (h : d < 10) : digitVal (digitChar d) = some d := by
  interval_cases d <;> decide

theorem digitChar_bounds {d : Nat} (h : d < 10) :
    48 ≤ (digitChar d).toNat ∧ (digitChar d).toNat ≤ 57 := by
  interval_cases d <;> decide

theorem natDigitsF_ne_nil {f n : Nat} (h : n < f) : natDigitsF f n ≠ [] := by
  cases f with
  | zero => omega
  | succ f =>
    rw [natDigitsF]
    by_cases h10 : n < 10 <;> simp [h10]

theorem natDigitsF_head_digit {f n : Nat} (h : n < f) :
    ∃ d t, natDigitsF f n = d :: t ∧ 48 ≤ d.toNat ∧ d.toNat ≤ 57 := by
  induction f generalizing n with
  | zero => omega
  | succ f ih =>
    rw [natDigitsF]
    by_cases h10 : n < 10
    · exact ⟨digitChar n, [], by simp [h10], digitChar_bounds h10⟩
    · simp only [h10, if_false]
      have hlt : n / 10 < f := by
        have hn : 0 < n := by omega
        have := Nat.div_lt_self hn (by omega : 1 < 10)
        omega
      obtain ⟨d, t, heq, hb⟩ := ih hlt
      exact ⟨d, t ++ [digitChar (n % 10)], by rw [heq]; simp, hb⟩

theorem parseDigitsAux_stop {rest : Str} (a : Nat) (h : digitFreeHead rest = true) :
    parseDigitsAux a rest = (a, rest) := by
  cases rest with
  | nil => rfl
  | cons c t =>
    cases hdv : digitVal c with
    | none => simp [parseDigitsAux, hdv]
    | some d => simp [digitFreeHead, hdv] at h

theorem parseDigitsAux_run {f : Nat} :
    ∀ {n : Nat} (acc : Nat) (rest : Str), n < f →
      parseDigitsAux acc (natDigitsF f n ++ rest)
        = parseDigitsAux (acc * 10 ^ (natDigitsF f n).length + n) rest := by
  induction f with
  | zero => intro n acc rest h; omega
  | succ f ih =>
    intro n acc rest h
    rw [natDigitsF]
    by_cases h10 : n < 10
    · simp only [h10, if_true]
      simp [parseDigitsAux, digitVal_digitChar h10]
    · simp only [h10, if_false]
      have hlt : n / 10 < f := by
        have hn : 0 < n := by omega
        have := Nat.div_lt_self hn (by omega : 1 < 10)
        omega
      rw [List.append_assoc, ih acc _ hlt, List.cons_append, List.nil_append, parseDigitsAux,
        digitVal_digitChar (Nat.mod_lt n (by omega))]
      simp only [List.length_append, List.length_cons, List.length_nil, Nat.zero_add]
      have hdm : n / 10 * 10 + n % 10 = n := by omega
      have hexp : (acc * 10 ^ (natDigitsF f (n / 10)).length + n / 10) * 10 + n % 10
          = acc * (10 ^ (natDigitsF f (n / 10)).length * 10) + (n / 10 * 10 + n % 10) := by
        ring
      rw [hexp, hdm, ← pow_succ]

theorem parseDigits_natDigits (n : Nat) (rest : Str) (h : digitFreeHead rest = true) :
    parseDigits (natDigits n ++ rest) = some (n, rest) := by
  obtain ⟨d, t, heq, hb⟩ := natDigitsF_head_digit (Nat.lt_succ_self n)
  have hrun := parseDigitsAux_run (f := n + 1) 0 rest (Nat.lt_succ_self n)
  simp only [natDigits]
  rw [heq] at hrun ⊢
  have hd : digitVal d = some (d.toNat - 48) := by simp [digitVal, hb.1, hb.2]
  rw [List.cons_append, parseDigits, hd]
  rw [List.cons_append, parseDigitsAux, hd] at hrun
  simp only [Nat.zero_mul, Nat.zero_add] at hrun
  show some (parseDigitsAux (d.toNat - 48) (t ++ rest)) = some (n, rest)
  rw [hrun, parseDigitsAux_stop _ h]

/-! ### String-literal escaping round trip -/

theorem hexVal_hexDigitChar {d : Nat} (h : d < 16) : hexVal (hexDigitChar d) = some d := by
  interval_cases d <;> decide

theorem parseStringBody_escape (s : Str) :
    ∀ rest, parseStringBody (escapeStr s ++ '"' :: rest) = some (s, rest) := by
  induction s with
  | nil =>
    intro rest
    have h0 : escapeStr [] = [] := rfl
    rw [h0, List.nil_append, parseStringBody.eq_def]
    simp
  | cons c s ih =>
    intro rest
    have hes : escapeStr (c :: s) = escSeq c ++ escapeStr s := by
      simp [escapeStr]
    rw [hes, List.append_assoc]
    by_cases h1 : c = '"'
    · subst h1
      rw [(by decide : escSeq '"' = ['\\', '"'])]
      rw [List.cons_append, List.cons_append, List.nil_append, parseStringBody.eq_def]
      simp [ih rest]
    · by_cases h2 : c = '\\'
      · subst h2
        rw [(by decide : escSeq '\\' = ['\\', '\\'])]
        rw [List.cons_append, List.cons_append, List.nil_append, parseStringBody.eq_def]
        simp [ih rest]
      · by_cases h3 : c = '\x08'
        · subst h3
          rw [(by decide : escSeq '\x08' = ['\\', 'b'])]
          rw [List.cons_append, List.cons_append, List.nil_append, parseStringBody.eq_def]
          simp [ih rest]
        · by_cases h4 : c = '\t'
          · subst h4
            rw [(by decide : escSeq '\t' = ['\\', 't'])]
            rw [List.cons_append, List.cons_append, List.nil_append, parseStringBody.eq_def]
            simp [ih rest]
          · by_cases h5 : c = '\n'
            · subst h5
              rw [(by decide : escSeq '\n' = ['\\', 'n'])]
              rw [List.cons_append, List.cons_append, List.nil_append, parseStringBody.eq_def]
              simp [ih rest]
            · by_cases h6 : c = '\x0c'
              · subst h6
                rw [(by decide : escSeq '\x0c' = ['\\', 'f'])]
                rw [List.cons_append, List.cons_append, List.nil_append, parseStringBody.eq_def]
                simp [ih rest]
              · by_cases h7 : c = '\r'
                · subst h7
                  rw [(by decide : escSeq '\r' = ['\\', 'r'])]
                  rw [List.cons_append, List.cons_append, List.nil_append, parseStringBody.eq_def]
                  simp [ih rest]
                · by_cases h8 : c.toNat < 32
                  · have hseq : escSeq c =
                        ['\\', 'u', '0', '0', hexDigitChar (c.toNat / 16),
                         hexDigitChar (c.toNat % 16)] := by
                      simp [escSeq, h1, h2, h3, h4, h5, h6, h7, h8]
                    rw [hseq]
                    have hhi : hexVal (hexDigitChar (c.toNat / 16)) = some (c.toNat / 16) :=
                      hexVal_hexDigitChar (by omega)
                    have hlo : hexVal (hexDigitChar (c.toNat % 16)) = some (c.toNat % 16) :=
                      hexVal_hexDigitChar (Nat.mod_lt _ (by omega))
                    have hn : ((0 * 16 + 0) * 16 + c.toNat / 16) * 16 + c.toNat % 16
                        = c.toNat := by omega
                    have h55 : c.toNat < 55296 := by omega
                    have h00 : hexVal '0' = some 0 := by decide
                    simp only [List.cons_append, List.nil_append]
                    rw [parseStringBody.eq_def]
                    simp [h00, hhi, hlo, hn, h55, Char.ofNat_toNat, ih rest]
                    have hdm : c.toNat / 16 * 16 + c.toNat % 16 = c.toNat := by omega
                    rw [hdm]
                    exact ⟨h55, Char.ofNat_toNat c⟩
                  · have hseq : escSeq c = [c] := by
                      simp [escSeq, h1, h2, h3, h4, h5, h6, h7, h8]
                    rw [hseq]
                    simp only [List.cons_append, List.nil_append]
                    rw [parseStringBody.eq_def]
                    simp [h1, h2, h8, ih rest]

/-! ### Serialiser heads and fuel bounds -/

theorem digit_head_props {c : Char} (h48 : 48 ≤ c.toNat) (h57 : c.toNat ≤ 57) :
    isJsonWs c = false ∧ c ≠ ']' ∧ c ≠ '{' ∧ c ≠ '[' ∧ c ≠ '"' ∧ c ≠ 't' ∧ c ≠ 'f' ∧
      c ≠ 'n' ∧ c ≠ '-' := by
  have hsp : c ≠ ' ' := fun e => absurd h48 (by subst e; decide)
  have htb : c ≠ '\t' := fun e => absurd h48 (by subst e; decide)
  have hnl : c ≠ '\n' := fun e => absurd h48 (by subst e; decide)
  have hcr : c ≠ '\r' := fun e => absurd h48 (by subst e; decide)
  refine ⟨by simp [isJsonWs, hsp, htb, hnl, hcr], ?_, ?_, ?_, ?_, ?_, ?_, ?_, ?_⟩
  · exact fun e => absurd h57 (by subst e; decide)
  · exact fun e => absurd h57 (by subst e; decide)
  · exact fun e => absurd h57 (by subst e; decide)
  · exact fun e => absurd h48 (by subst e; decide)
  · exact fun e => absurd h57 (by subst e; decide)
  · exact fun e => absurd h57 (by subst e; decide)
  · exact fun e => absurd h57 (by subst e; decide)
  · exact fun e => absurd h48 (by subst e; decide)

theorem serInt_head (n : Int) :
    ∃ c t, serInt n = c :: t ∧ isJsonWs c = false ∧ c ≠ ']' := by
  rw [serInt]
  by_cases hneg : n < 0
  · exact ⟨'-', natDigits n.natAbs, by simp [hneg], by decide, by decide⟩
  · simp only [hneg, if_false]
    obtain ⟨d, t, heq, h48, h57⟩ := natDigitsF_head_digit (Nat.lt_succ_self n.natAbs)
    obtain ⟨hws, hrb, -⟩ := digit_head_props h48 h57
    exact ⟨d, t, by rw [natDigits, heq], hws, hrb⟩

theorem serJ_head (st : Option Nat) (j : Json) :
    ∃ c t, serJ st j = c :: t ∧ isJsonWs c = false ∧ c ≠ ']' := by
  cases j with
  | null => exact ⟨'n', chars "ull", by cases st <;> rfl, by decide, by decide⟩
  | bool b =>
    cases b with
    | true => exact ⟨'t', chars "rue", by cases st <;> rfl, by decide, by decide⟩
    | false => exact ⟨'f', chars "alse", by cases st <;> rfl, by decide, by decide⟩
  | num n =>
    obtain ⟨c, t, heq, hws, hrb⟩ := serInt_head n
    exact ⟨c, t, by cases st <;> simpa [serJ] using heq, hws, hrb⟩
  | str s => exact ⟨'"', escapeStr s ++ ['"'], by cases st <;> rfl, by decide, by decide⟩
  | arr xs =>
    cases xs with
    | nil => exact ⟨'[', [']'], by cases st <;> rfl, by decide, by decide⟩
    | cons x tl =>
      cases st with
      | none => exact ⟨'[', _, rfl, by decide, by decide⟩
      | some i => exact ⟨'[', _, rfl, by decide, by decide⟩
  | obj kvs =>
    cases kvs with
    | nil => exact ⟨'{', ['}'], by cases st <;> rfl, by decide, by decide⟩
    | cons k v tl =>
      cases st with
      | none => exact ⟨'{', _, rfl, by decide, by decide⟩
      | some i => exact ⟨'{', _, rfl, by decide, by decide⟩

theorem serJ_ne_nil (st : Option Nat) (j : Json) : serJ st j ≠ [] := by
  obtain ⟨c, t, heq, -, -⟩ := serJ_head st j
  simp [heq]

theorem serJ_length_pos (st : Option Nat) (j : Json) : 1 ≤ (serJ st j).length := by
  obtain ⟨c, t, heq, -, -⟩ := serJ_head st j
  simp [heq]

theorem jfuel_pos (j : Json) : 1 ≤ jfuel j := by
  cases j <;> simp [jfuel]

theorem skipWs_idem (cs : Str) : skipWs (skipWs cs) = skipWs cs := by
  induction cs with
  | nil => rfl
  | cons c t ih =>
    by_cases h : isJsonWs c = true
    · rw [skipWs_cons_of_ws _ h, ih]
    · rw [skipWs_cons_of_not_ws _ (by simpa using h), skipWs_cons_of_not_ws _ (by simpa using h)]

theorem allWsB_takeWhile (cs : Str) : allWsB (cs.takeWhile isJsonWs) = true := by
  simp only [allWsB, List.all_eq_true]
  intro c hc
  exact List.mem_takeWhile_imp hc

theorem parseValue_ws (f : Nat) (pre cs : Str) (h : allWsB pre = true) :
    parseValue f (pre ++ cs) = parseValue f cs := by
  cases f with
  | zero => rfl
  | succ f' =>
    simp only [parseValue]
    rw [skipWs_append_of_allWs _ h]

theorem parseValue_skipWs (f : Nat) (cs : Str) :
    parseValue f (skipWs cs) = parseValue f cs := by
  conv_rhs => rw [← List.takeWhile_append_dropWhile (p := isJsonWs) (l := cs)]
  exact (parseValue_ws f _ _ (allWsB_takeWhile cs)).symm

theorem parseElems_ws (f : Nat) (pre cs : Str) (h : allWsB pre = true) :
    parseElems f (pre ++ cs) = parseElems f cs := by
  cases f with
  | zero => rfl
  | succ f' =>
    simp only [parseElems]
    rw [parseValue_ws _ _ _ h]

theorem parseElems_skipWs (f : Nat) (cs : Str) :
    parseElems f (skipWs cs) = parseElems f cs := by
  conv_rhs => rw [← List.takeWhile_append_dropWhile (p := isJsonWs) (l := cs)]
  exact (parseElems_ws f _ _ (allWsB_takeWhile cs)).symm

theorem parseValue_arr_entry (f : Nat) (T : Str) :
    parseValue (f + 1) ('[' :: T)
      = (match skipWs T with
         | ']' :: r => some (Json.arr JArr.nil, r)
         | t' => (parseElems f t').map (fun p => (Json.arr p.1, p.2))) := by
  simp only [parseValue]
  rw [skipWs_cons_of_not_ws _ (by decide)]
  simp

theorem parseValue_obj_entry (f : Nat) (T : Str) :
    parseValue (f + 1) ('{' :: T)
      = (match skipWs T with
         | '}' :: r => some (Json.obj JObj.nil, r)
         | t' => (parseMembers f t').map (fun p => (Json.obj p.1, p.2))) := by
  simp only [parseValue]
  rw [skipWs_cons_of_not_ws _ (by decide)]
  simp

mutual

theorem parse_serJ (j : Json) : ∀ (st : Option Nat) (f : Nat) (rest : Str),
    jfuel j ≤ f → digitFreeHead rest = true →
    parseValue f (serJ st j ++ rest) = some (j, rest) := by
  intro st f rest hf hrest
  cases f with
  | zero => exact absurd (le_trans (jfuel_pos j) hf) (by omega)
  | succ f' =>
    cases j with
    | null =>
      have h1 : serJ st Json.null ++ rest = 'n' :: (chars "ull" ++ rest) := by cases st <;> rfl
      rw [h1]
      simp only [parseValue]
      rw [skipWs_cons_of_not_ws _ (by decide)]
      simp only [isPrefixOf_self_append]
      simp
      rfl
    | bool b =>
      cases b with
      | true =>
        have h1 : serJ st (Json.bool true) ++ rest = 't' :: (chars "rue" ++ rest) := by
          cases st <;> rfl
        rw [h1]
        simp only [parseValue]
        rw [skipWs_cons_of_not_ws _ (by decide)]
        simp only [isPrefixOf_self_append]
        simp
        rfl
      | false =>
        have h1 : serJ st (Json.bool false) ++ rest = 'f' :: (chars "alse" ++ rest) := by
          cases st <;> rfl
        rw [h1]
        simp only [parseValue]
        rw [skipWs_cons_of_not_ws _ (by decide)]
        simp only [isPrefixOf_self_append]
        simp
        rfl
    | num n =>
      by_cases hneg : n < 0
      · have h1 : serJ st (Json.num n) ++ rest = '-' :: (natDigits n.natAbs ++ rest) := by
          cases st <;> simp [serJ, serInt, hneg]
        rw [h1]
        simp only [parseValue]
        rw [skipWs_cons_of_not_ws _ (by decide)]
        simp [parseDigits_natDigits _ _ hrest]
        rw [abs_of_nonpos (le_of_lt hneg)]
        ring
      · have h1 : serJ st (Json.num n) = natDigits n.natAbs := by
          cases st <;> simp [serJ, serInt, hneg]
        obtain ⟨d, t, heq, h48, h57⟩ := natDigitsF_head_digit (Nat.lt_succ_self n.natAbs)
        have heq2 : natDigits n.natAbs = d :: t := by rw [natDigits, heq]
        obtain ⟨hws, -, hbk, hbb, hqu, hte, hfa, hnu, hmi⟩ := digit_head_props h48 h57
        rw [h1, heq2, List.cons_append]
        simp only [parseValue]
        rw [skipWs_cons_of_not_ws _ hws]
        simp only [hbk, hbb, hqu, hte, hfa, hnu, hmi, if_false]
        rw [← List.cons_append, ← heq2, parseDigits_natDigits _ _ hrest]
        simp [Int.natAbs_of_nonneg (not_lt.mp hneg)]
    | str s =>
      have h1 : serJ st (Json.str s) ++ rest = '"' :: (escapeStr s ++ '"' :: rest) := by
        cases st <;> simp [serJ, qstr]
      rw [h1]
      simp only [parseValue]
      rw [skipWs_cons_of_not_ws _ (by decide)]
      simp [parseStringBody_escape]
    | arr xs =>
      cases xs with
      | nil =>
        have h1 : serJ st (Json.arr JArr.nil) ++ rest = '[' :: (']' :: rest) := by
          cases st <;> rfl
        rw [h1, parseValue_arr_entry]
        rw [skipWs_cons_of_not_ws _ (by decide)]
        simp
      | cons x tl =>
        have hfa : jfuelA (JArr.cons x tl) ≤ f' := by
          simp only [jfuel] at hf; omega
        cases st with
        | none =>
          obtain ⟨c, t0, hhead, hcws, hcrb⟩ := serJ_head none x
          have h1 : serJ none (Json.arr (JArr.cons x tl)) ++ rest
              = '[' :: (serItemsC (JArr.cons x tl) ++ ']' :: rest) := by
            simp [serJ]
          rw [h1, parseValue_arr_entry]
          obtain ⟨z, hz⟩ : ∃ z, serItemsC (JArr.cons x tl) = serJ none x ++ z := by
            cases tl with
            | nil => exact ⟨[], by simp [serItemsC]⟩
            | cons y ys => exact ⟨_, rfl⟩
          have hskip : skipWs (serItemsC (JArr.cons x tl) ++ ']' :: rest)
              = serItemsC (JArr.cons x tl) ++ ']' :: rest := by
            rw [hz, hhead]
            rw [List.cons_append, List.cons_append, skipWs_cons_of_not_ws _ hcws]
          rw [hskip]
          have hitems := parse_itemsC (JArr.cons x tl) f' rest (by simp) hfa
          split
          next r hr =>
            rw [hz, hhead] at hr
            simp only [List.cons_append] at hr
            exact absurd (by injection hr) hcrb
          next =>
            rw [hitems]
            rfl
        | some i =>
          obtain ⟨cp, tp, hheadp, hcwsp, hcrbp⟩ := serJ_head (some (i + 2)) x
          have h1 : serJ (some i) (Json.arr (JArr.cons x tl)) ++ rest
              = '[' :: ('\n' :: (serItemsP (i + 2) (JArr.cons x tl)
                  ++ '\n' :: (spacesN i ++ ']' :: rest))) := by
            simp [serJ, List.append_assoc]
          rw [h1, parseValue_arr_entry]
          obtain ⟨z, hz⟩ : ∃ z, serItemsP (i + 2) (JArr.cons x tl)
              = spacesN (i + 2) ++ (serJ (some (i + 2)) x ++ z) := by
            cases tl with
            | nil => exact ⟨[], by simp [serItemsP]⟩
            | cons y ys =>
              exact ⟨',' :: '\n' :: serItemsP (i + 2) (JArr.cons y ys),
                by simp [serItemsP, List.append_assoc]⟩
          have hskip : skipWs ('\n' :: (serItemsP (i + 2) (JArr.cons x tl)
                  ++ '\n' :: (spacesN i ++ ']' :: rest)))
              = serJ (some (i + 2)) x ++ (z ++ '\n' :: (spacesN i ++ ']' :: rest)) := by
            rw [skipWs_cons_of_ws _ (by decide), hz]
            rw [List.append_assoc, skipWs_spacesN_append, List.append_assoc]
            rw [hheadp, List.cons_append, skipWs_cons_of_not_ws _ hcwsp]
          rw [hskip]
          split
          next r hr =>
            rw [hheadp, List.cons_append] at hr
            exact absurd (by injection hr) hcrbp
          next =>
            rw [← parseElems_ws f' (spacesN (i + 2)) (serJ (some (i + 2)) x
              ++ (z ++ '\n' :: (spacesN i ++ ']' :: rest))) (allWsB_spacesN _)]
            have harg : spacesN (i + 2) ++ (serJ (some (i + 2)) x
                  ++ (z ++ '\n' :: (spacesN i ++ ']' :: rest)))
                = serItemsP (i + 2) (JArr.cons x tl) ++ '\n' :: (spacesN i ++ ']' :: rest) := by
              rw [hz]
              simp [List.append_assoc]
            rw [harg, parse_itemsP (JArr.cons x tl) f' (i + 2) i rest (by simp) hfa]
            rfl
    | obj kvs =>
      cases kvs with
      | nil =>
        have h1 : serJ st (Json.obj JObj.nil) ++ rest = '{' :: ('}' :: rest) := by
          cases st <;> rfl
        rw [h1, parseValue_obj_entry]
        rw [skipWs_cons_of_not_ws _ (by decide)]
        simp
      | cons k v tl =>
        have hfo : jfuelO (JObj.cons k v tl) ≤ f' := by
          simp only [jfuel] at hf; omega
        cases st with
        | none =>
          have h1 : serJ none (Json.obj (JObj.cons k v tl)) ++ rest
              = '{' :: (serKVsC (JObj.cons k v tl) ++ '}' :: rest) := by
            simp [serJ]
          rw [h1, parseValue_obj_entry]
          obtain ⟨z, hz⟩ : ∃ z, serKVsC (JObj.cons k v tl) = '"' :: (escapeStr k ++ '"' :: z) := by
            cases tl with
            | nil => exact ⟨':' :: serJ none v, by simp [serKVsC, qstr, List.append_assoc]⟩
            | cons k2 v2 tl2 =>
              exact ⟨':' :: (serJ none v ++ ',' :: serKVsC (JObj.cons k2 v2 tl2)),
                by simp [serKVsC, qstr, List.append_assoc]⟩
          have hskip : skipWs (serKVsC (JObj.cons k v tl) ++ '}' :: rest)
              = serKVsC (JObj.cons k v tl) ++ '}' :: rest := by
            rw [hz, List.cons_append, skipWs_cons_of_not_ws _ (by decide)]
          rw [hskip]
          have hkvs := parse_kvsC (JObj.cons k v tl) f' rest (by simp) hfo
          split
          next r hr =>
            rw [hz, List.cons_append] at hr
            have : '"' = '}' := by injection hr
            exact absurd this (by decide)
          next =>
            rw [hkvs]
            rfl
        | some i =>
          have h1 : serJ (some i) (Json.obj (JObj.cons k v tl)) ++ rest
              = '{' :: ('\n' :: (serKVsP (i + 2) (JObj.cons k v tl)
                  ++ '\n' :: (spacesN i ++ '}' :: rest))) := by
            simp [serJ, List.append_assoc]
          rw [h1, parseValue_obj_entry]
          obtain ⟨z, hz⟩ : ∃ z, serKVsP (i + 2) (JObj.cons k v tl)
              = spacesN (i + 2) ++ ('"' :: (escapeStr k ++ '"' :: z)) := by
            cases tl with
            | nil =>
              exact ⟨':' :: ' ' :: serJ (some (i + 2)) v,
                by simp [serKVsP, qstr, List.append_assoc]⟩
            | cons k2 v2 tl2 =>
              exact ⟨':' :: ' ' :: (serJ (some (i + 2)) v
                  ++ ',' :: '\n' :: serKVsP (i + 2) (JObj.cons k2 v2 tl2)),
                by simp [serKVsP, qstr, List.append_assoc]⟩
          have hs1 : skipWs ('\n' :: (serKVsP (i + 2) (JObj.cons k v tl)
                  ++ '\n' :: (spacesN i ++ '}' :: rest)))
              = '"' :: (escapeStr k ++ '"' :: z) ++ '\n' :: (spacesN i ++ '}' :: rest) := by
            rw [skipWs_cons_of_ws _ (by decide), hz]
            rw [List.append_assoc, skipWs_spacesN_append]
            rw [List.cons_append, skipWs_cons_of_not_ws _ (by decide)]
          rw [hs1]
          have hkvs := parse_kvsP (JObj.cons k v tl) f' (i + 2) i rest (by simp) hfo
          have hs2 : skipWs (serKVsP (i + 2) (JObj.cons k v tl)
                  ++ '\n' :: (spacesN i ++ '}' :: rest))
              = '"' :: (escapeStr k ++ '"' :: z) ++ '\n' :: (spacesN i ++ '}' :: rest) := by
            rw [hz]
            rw [List.append_assoc, skipWs_spacesN_append]
            rw [List.cons_append, skipWs_cons_of_not_ws _ (by decide)]
          rw [hs2] at hkvs
          split
          next r hr =>
            rw [List.cons_append] at hr
            have : '"' = '}' := by injection hr
            exact absurd this (by decide)
          next =>
            rw [hkvs]
            rfl

theorem parse_itemsC (xs : JArr) : ∀ (f : Nat) (rest : Str), xs ≠ JArr.nil → jfuelA xs ≤ f →
    parseElems f (serItemsC xs ++ ']' :: rest) = some (xs, rest) := by
  intro f rest hne hful
  cases xs with
  | nil => exact absurd rfl hne
  | cons x tl =>
    cases f with
    | zero => simp [jfuelA] at hful
    | succ f' =>
      have hx : jfuel x ≤ f' := by simp only [jfuelA] at hful; omega
      have htl : jfuelA tl ≤ f' := by simp only [jfuelA] at hful; omega
      cases tl with
      | nil =>
        have h1 : serItemsC (JArr.cons x JArr.nil) = serJ none x := by simp [serItemsC]
        rw [h1]
        have hv := parse_serJ x none f' (']' :: rest) hx (by rfl)
        simp only [parseElems, hv]
        rw [skipWs_cons_of_not_ws _ (by decide)]
        simp
      | cons y ys =>
        have h1 : serItemsC (JArr.cons x (JArr.cons y ys)) ++ ']' :: rest
            = serJ none x ++ (',' :: (serItemsC (JArr.cons y ys) ++ ']' :: rest)) := by
          simp [serItemsC, List.append_assoc]
        rw [h1]
        have hv := parse_serJ x none f'
          (',' :: (serItemsC (JArr.cons y ys) ++ ']' :: rest)) hx (by rfl)
        simp only [parseElems, hv]
        rw [skipWs_cons_of_not_ws _ (by decide)]
        simp [parse_itemsC (JArr.cons y ys) f' rest (by simp) htl]

theorem parse_itemsP (xs : JArr) : ∀ (f i i0 : Nat) (rest : Str), xs ≠ JArr.nil →
    jfuelA xs ≤ f →
    parseElems f (serItemsP i xs ++ '\n' :: (spacesN i0 ++ ']' :: rest)) = some (xs, rest) := by
  intro f i i0 rest hne hful
  cases xs with
  | nil => exact absurd rfl hne
  | cons x tl =>
    cases f with
    | zero => simp [jfuelA] at hful
    | succ f' =>
      have hx : jfuel x ≤ f' := by simp only [jfuelA] at hful; omega
      have htl : jfuelA tl ≤ f' := by simp only [jfuelA] at hful; omega
      cases tl with
      | nil =>
        have h1 : serItemsP i (JArr.cons x JArr.nil) ++ '\n' :: (spacesN i0 ++ ']' :: rest)
            = spacesN i ++ (serJ (some i) x ++ '\n' :: (spacesN i0 ++ ']' :: rest)) := by
          simp [serItemsP, List.append_assoc]
        rw [h1]
        have hv : parseValue f' (spacesN i ++ (serJ (some i) x
              ++ '\n' :: (spacesN i0 ++ ']' :: rest)))
            = some (x, '\n' :: (spacesN i0 ++ ']' :: rest)) := by
          rw [parseValue_ws _ _ _ (allWsB_spacesN i)]
          exact parse_serJ x (some i) f' _ hx (by rfl)
        simp only [parseElems, hv]
        rw [skipWs_cons_of_ws _ (by decide), skipWs_spacesN_append,
          skipWs_cons_of_not_ws _ (by decide)]
        simp
      | cons y ys =>
        have h1 : serItemsP i (JArr.cons x (JArr.cons y ys))
              ++ '\n' :: (spacesN i0 ++ ']' :: rest)
            = spacesN i ++ (serJ (some i) x
                ++ ',' :: ('\n' :: (serItemsP i (JArr.cons y ys)
                  ++ '\n' :: (spacesN i0 ++ ']' :: rest)))) := by
          simp [serItemsP, List.append_assoc]
        rw [h1]
        have hv : parseValue f' (spacesN i ++ (serJ (some i) x
              ++ ',' :: ('\n' :: (serItemsP i (JArr.cons y ys)
                ++ '\n' :: (spacesN i0 ++ ']' :: rest)))))
            = some (x, ',' :: ('\n' :: (serItemsP i (JArr.cons y ys)
                ++ '\n' :: (spacesN i0 ++ ']' :: rest)))) := by
          rw [parseValue_ws _ _ _ (allWsB_spacesN i)]
          exact parse_serJ x (some i) f' _ hx (by rfl)
        simp only [parseElems, hv]
        rw [skipWs_cons_of_not_ws _ (by decide)]
        have h2 : parseElems f' ('\n' :: (serItemsP i (JArr.cons y ys)
            ++ '\n' :: (spacesN i0 ++ ']' :: rest))) = some (JArr.cons y ys, rest) := by
          have hw := parseElems_ws f' ['\n'] (serItemsP i (JArr.cons y ys)
            ++ '\n' :: (spacesN i0 ++ ']' :: rest)) (by decide)
          rw [List.cons_append, List.nil_append] at hw
          rw [hw]
          exact parse_itemsP (JArr.cons y ys) f' i i0 rest (by simp) htl
        simp [h2]

theorem parse_kvsC (kvs : JObj) : ∀ (f : Nat) (rest : Str), kvs ≠ JObj.nil → jfuelO kvs ≤ f →
    parseMembers f (serKVsC kvs ++ '}' :: rest) = some (kvs, rest) := by
  intro f rest hne hful
  cases kvs with
  | nil => exact absurd rfl hne
  | cons k v tl =>
    cases f with
    | zero => simp [jfuelO] at hful
    | succ f' =>
      have hv : jfuel v ≤ f' := by simp only [jfuelO] at hful; omega
      have htl : jfuelO tl ≤ f' := by simp only [jfuelO] at hful; omega
      cases tl with
      | nil =>
        have h1 : serKVsC (JObj.cons k v JObj.nil) ++ '}' :: rest
            = '"' :: (escapeStr k ++ '"' :: (':' :: (serJ none v ++ '}' :: rest))) := by
          simp [serKVsC, qstr, List.append_assoc]
        rw [h1]
        have hk := parseStringBody_escape k (':' :: (serJ none v ++ '}' :: rest))
        simp only [parseMembers, hk]
        rw [skipWs_cons_of_not_ws _ (by decide)]
        have hval := parse_serJ v none f' ('}' :: rest) hv (by rfl)
        simp only [hval]
        rw [skipWs_cons_of_not_ws _ (by decide)]
        simp
      | cons k2 v2 tl2 =>
        have h1 : serKVsC (JObj.cons k v (JObj.cons k2 v2 tl2)) ++ '}' :: rest
            = '"' :: (escapeStr k ++ '"' :: (':' :: (serJ none v
                ++ ',' :: (serKVsC (JObj.cons k2 v2 tl2) ++ '}' :: rest)))) := by
          simp [serKVsC, qstr, List.append_assoc]
        rw [h1]
        have hk := parseStringBody_escape k (':' :: (serJ none v
          ++ ',' :: (serKVsC (JObj.cons k2 v2 tl2) ++ '}' :: rest)))
        simp only [parseMembers, hk]
        rw [skipWs_cons_of_not_ws _ (by decide)]
        have hval := parse_serJ v none f'
          (',' :: (serKVsC (JObj.cons k2 v2 tl2) ++ '}' :: rest)) hv (by rfl)
        simp only [hval]
        rw [skipWs_cons_of_not_ws _ (by decide)]
        obtain ⟨z2, hz2⟩ : ∃ z2, serKVsC (JObj.cons k2 v2 tl2)
            = '"' :: (escapeStr k2 ++ '"' :: z2) := by
          cases tl2 with
          | nil => exact ⟨':' :: serJ none v2, by simp [serKVsC, qstr, List.append_assoc]⟩
          | cons k3 v3 tl3 =>
            exact ⟨':' :: (serJ none v2 ++ ',' :: serKVsC (JObj.cons k3 v3 tl3)),
              by simp [serKVsC, qstr, List.append_assoc]⟩
        have hsk : skipWs (serKVsC (JObj.cons k2 v2 tl2) ++ '}' :: rest)
            = serKVsC (JObj.cons k2 v2 tl2) ++ '}' :: rest := by
          rw [hz2, List.cons_append, skipWs_cons_of_not_ws _ (by decide)]
        simp [hsk, parse_kvsC (JObj.cons k2 v2 tl2) f' rest (by simp) htl]

theorem parse_kvsP (kvs : JObj) : ∀ (f i i0 : Nat) (rest : Str), kvs ≠ JObj.nil →
    jfuelO kvs ≤ f →
    parseMembers f (skipWs (serKVsP i kvs ++ '\n' :: (spacesN i0 ++ '}' :: rest)))
      = some (kvs, rest) := by
  intro f i i0 rest hne hful
  cases kvs with
  | nil => exact absurd rfl hne
  | cons k v tl =>
    cases f with
    | zero => simp [jfuelO] at hful
    | succ f' =>
      have hv : jfuel v ≤ f' := by simp only [jfuelO] at hful; omega
      have htl : jfuelO tl ≤ f' := by simp only [jfuelO] at hful; omega
      cases tl with
      | nil =>
        have h1 : skipWs (serKVsP i (JObj.cons k v JObj.nil)
              ++ '\n' :: (spacesN i0 ++ '}' :: rest))
            = '"' :: (escapeStr k ++ '"' :: (':' :: (' ' :: (serJ (some i) v
                ++ '\n' :: (spacesN i0 ++ '}' :: rest))))) := by
          simp only [serKVsP, qstr, List.cons_append, List.append_assoc]
          rw [skipWs_spacesN_append]
          rw [skipWs_cons_of_not_ws _ (by decide)]
          simp [List.append_assoc]
        rw [h1]
        have hk := parseStringBody_escape k (':' :: (' ' :: (serJ (some i) v
          ++ '\n' :: (spacesN i0 ++ '}' :: rest))))
        simp only [parseMembers, hk]
        rw [skipWs_cons_of_not_ws _ (by decide)]
        have hval : parseValue f' (' ' :: (serJ (some i) v
              ++ '\n' :: (spacesN i0 ++ '}' :: rest)))
            = some (v, '\n' :: (spacesN i0 ++ '}' :: rest)) := by
          have hw := parseValue_ws f' [' '] (serJ (some i) v
            ++ '\n' :: (spacesN i0 ++ '}' :: rest)) (by decide)
          rw [List.cons_append, List.nil_append] at hw
          rw [hw]
          exact parse_serJ v (some i) f' _ hv (by rfl)
        simp only [hval]
        rw [skipWs_cons_of_ws _ (by decide), skipWs_spacesN_append,
          skipWs_cons_of_not_ws _ (by decide)]
        simp
      | cons k2 v2 tl2 =>
        have h1 : skipWs (serKVsP i (JObj.cons k v (JObj.cons k2 v2 tl2))
              ++ '\n' :: (spacesN i0 ++ '}' :: rest))
            = '"' :: (escapeStr k ++ '"' :: (':' :: (' ' :: (serJ (some i) v
                ++ ',' :: ('\n' :: (serKVsP i (JObj.cons k2 v2 tl2)
                  ++ '\n' :: (spacesN i0 ++ '}' :: rest))))))) := by
          simp only [serKVsP, qstr, List.cons_append, List.append_assoc]
          rw [skipWs_spacesN_append]
          rw [skipWs_cons_of_not_ws _ (by decide)]
          simp [List.append_assoc]
        rw [h1]
        have hk := parseStringBody_escape k (':' :: (' ' :: (serJ (some i) v
          ++ ',' :: ('\n' :: (serKVsP i (JObj.cons k2 v2 tl2)
            ++ '\n' :: (spacesN i0 ++ '}' :: rest))))))
        simp only [parseMembers, hk]
        rw [skipWs_cons_of_not_ws _ (by decide)]
        have hval : parseValue f' (' ' :: (serJ (some i) v
              ++ ',' :: ('\n' :: (serKVsP i (JObj.cons k2 v2 tl2)
                ++ '\n' :: (spacesN i0 ++ '}' :: rest)))))
            = some (v, ',' :: ('\n' :: (serKVsP i (JObj.cons k2 v2 tl2)
                ++ '\n' :: (spacesN i0 ++ '}' :: rest)))) := by
          have hw := parseValue_ws f' [' '] (serJ (some i) v
            ++ ',' :: ('\n' :: (serKVsP i (JObj.cons k2 v2 tl2)
              ++ '\n' :: (spacesN i0 ++ '}' :: rest)))) (by decide)
          rw [List.cons_append, List.nil_append] at hw
          rw [hw]
          exact parse_serJ v (some i) f' _ hv (by rfl)
        simp only [hval]
        rw [skipWs_cons_of_not_ws _ (by decide)]
        have h3 : skipWs ('\n' :: (serKVsP i (JObj.cons k2 v2 tl2)
              ++ '\n' :: (spacesN i0 ++ '}' :: rest)))
            = skipWs (serKVsP i (JObj.cons k2 v2 tl2)
              ++ '\n' :: (spacesN i0 ++ '}' :: rest)) := by
          rw [skipWs_cons_of_ws _ (by decide)]
        simp [h3, parse_kvsP (JObj.cons k2 v2 tl2) f' i i0 rest (by simp) htl]

end

mutual

theorem jfuel_le_len (st : Option Nat) (j : Json) : jfuel j ≤ (serJ st j).length := by
  cases j with
  | null => simpa [jfuel] using serJ_length_pos st Json.null
  | bool b => simpa [jfuel] using serJ_length_pos st (Json.bool b)
  | num n => simpa [jfuel] using serJ_length_pos st (Json.num n)
  | str s => simpa [jfuel] using serJ_length_pos st (Json.str s)
  | arr xs =>
    cases xs with
    | nil => cases st <;> simp [serJ, jfuel, jfuelA, chars]
    | cons x tl =>
      cases st with
      | none =>
        have h := jfuelA_le_lenC (JArr.cons x tl)
        simp only [serJ, jfuel, List.length_cons, List.length_append]
        simp at h ⊢
        omega
      | some i =>
        have h := jfuelA_le_lenP (i + 2) (JArr.cons x tl)
        simp only [serJ, jfuel, List.length_cons, List.length_append]
        simp at h ⊢
        omega
  | obj kvs =>
    cases kvs with
    | nil => cases st <;> simp [serJ, jfuel, jfuelO, chars]
    | cons k v tl =>
      cases st with
      | none =>
        have h := jfuelO_le_lenC (JObj.cons k v tl)
        simp only [serJ, jfuel, List.length_cons, List.length_append]
        simp at h ⊢
        omega
      | some i =>
        have h := jfuelO_le_lenP (i + 2) (JObj.cons k v tl)
        simp only [serJ, jfuel, List.length_cons, List.length_append]
        simp at h ⊢
        omega

theorem jfuelA_le_lenC (xs : JArr) : jfuelA xs ≤ (serItemsC xs).length + 1 := by
  cases xs with
  | nil => simp [jfuelA]
  | cons x tl =>
    cases tl with
    | nil =>
      have h1 := jfuel_le_len none x
      simp only [jfuelA, serItemsC, jfuelA]
      simp
      omega
    | cons y ys =>
      have h1 := jfuel_le_len none x
      have h2 := jfuelA_le_lenC (JArr.cons y ys)
      have h3 := serJ_length_pos none x
      simp only [jfuelA, serItemsC] at h2 ⊢
      simp at h2 ⊢
      omega

theorem jfuelA_le_lenP (i : Nat) (xs : JArr) : jfuelA xs ≤ (serItemsP i xs).length + 1 := by
  cases xs with
  | nil => simp [jfuelA]
  | cons x tl =>
    cases tl with
    | nil =>
      have h1 := jfuel_le_len (some i) x
      simp only [jfuelA, serItemsP]
      simp
      omega
    | cons y ys =>
      have h1 := jfuel_le_len (some i) x
      have h2 := jfuelA_le_lenP i (JArr.cons y ys)
      have h3 := serJ_length_pos (some i) x
      simp only [jfuelA, serItemsP] at h2 ⊢
      simp at h2 ⊢
      omega

theorem jfuelO_le_lenC (kvs : JObj) : jfuelO kvs ≤ (serKVsC kvs).length + 1 := by
  cases kvs with
  | nil => simp [jfuelO]
  | cons k v tl =>
    cases tl with
    | nil =>
      have h1 := jfuel_le_len none v
      simp only [jfuelO, serKVsC, jfuelO]
      simp
      omega
    | cons k2 v2 tl2 =>
      have h1 := jfuel_le_len none v
      have h2 := jfuelO_le_lenC (JObj.cons k2 v2 tl2)
      have h3 := serJ_length_pos none v
      simp only [jfuelO, serKVsC] at h2 ⊢
      simp at h2 ⊢
      omega

theorem jfuelO_le_lenP (i : Nat) (kvs : JObj) : jfuelO kvs ≤ (serKVsP i kvs).length + 1 := by
  cases kvs with
  | nil => simp [jfuelO]
  | cons k v tl =>
    cases tl with
    | nil =>
      have h1 := jfuel_le_len (some i) v
      simp only [jfuelO, serKVsP]
      simp
      omega
    | cons k2 v2 tl2 =>
      have h1 := jfuel_le_len (some i) v
      have h2 := jfuelO_le_lenP i (JObj.cons k2 v2 tl2)
      have h3 := serJ_length_pos (some i) v
      simp only [jfuelO, serKVsP] at h2 ⊢
      simp at h2 ⊢
      omega

end

/-- Round trip: the embedded `JSON.parse` inverts the embedded
`JSON.stringify`, in both compact and pretty form. -/
theorem jsonParse_serJ (st : Option Nat) (j : Json) : jsonParse (serJ st j) = some j := by
  have h := parse_serJ j st ((serJ st j).length + 1) []
    (by have := jfuel_le_len st j; omega) (by rfl)
  rw [List.append_nil] at h
  simp only [jsonParse, h]
  simp [skipWs]

/-! ### Helper lemmas for the kill state machine -/

theorem kstep_start (a : KAction) :
    kstep startedState a = ⟨true, true, false, 1⟩ := by
  cases a <;> rfl

theorem kstep_absorb (s : SubprocState) (a : KAction) (h1 : s.isKilled = true)
    (h2 : s.timerArmed = false) : kstep s a = s := by
  cases a <;> simp [kstep, h1, h2]

theorem krun_absorb (s : SubprocState) (as : List KAction) (h1 : s.isKilled = true)
    (h2 : s.timerArmed = false) : krun s as = s := by
  induction as with
  | nil => rfl
  | cons a t ih =>
    show krun (kstep s a) t = s
    rw [kstep_absorb s a h1 h2, ih]

/-- C8: on the subprocess driver started state, any action sequence sends the
terminate signal at most once; a sequence beginning with `kill()` sends it
exactly once and leaves the timeout timer disarmed; and a further `kill()`
after any sequence already containing one changes nothing. -/
theorem claim_C8 (as : List KAction) :
    (krun startedState (KAction.kill :: as)).signalsSent = 1 ∧
    (krun startedState (KAction.kill :: as)).timerArmed = false ∧
    (krun startedState as).signalsSent ≤ 1 ∧
    krun startedState (as ++ [KAction.kill, KAction.kill])
      = krun startedState (as ++ [KAction.kill]) := by
  have hk : ∀ bs, krun startedState (KAction.kill :: bs) = ⟨true, true, false, 1⟩ := by
    intro bs
    show krun (kstep startedState .kill) bs = _
    rw [kstep_start]
    exact krun_absorb _ bs rfl rfl
  refine ⟨by rw [hk], by rw [hk], ?_, ?_⟩
  · cases as with
    | nil => decide
    | cons a t =>
      show (krun (kstep startedState a) t).signalsSent ≤ 1
      rw [kstep_start, krun_absorb _ t rfl rfl]
  · simp only [krun, List.foldl_append]
    cases as with
    | nil => decide
    | cons a t =>
      show List.foldl kstep (krun (kstep startedState a) t) _
        = List.foldl kstep (krun (kstep startedState a) t) _
      rw [kstep_start, krun_absorb _ t rfl rfl]
      decide

/-! ### Helper lemmas for the session manager -/

theorem sessGet_sessUpd_self (st : List (Str × SessionEntry)) (k : Str)
    (e e0 : SessionEntry) (h : sessGet st k = some e0) :
    sessGet (sessUpd st k e) k = some e := by
  induction st with
  | nil => simp [sessGet] at h
  | cons p rest ih =>
    obtain ⟨k', e'⟩ := p
    by_cases hk : k' = k
    · simp [sessGet, sessUpd, hk]
    · simp only [sessGet, sessUpd, if_neg hk] at h ⊢
      exact ih h

theorem sessGet_append_self (st : List (Str × SessionEntry)) (k : Str)
    (e : SessionEntry) (h : sessGet st k = none) :
    sessGet (st ++ [(k, e)]) k = some e := by
  induction st with
  | nil => simp [sessGet]
  | cons p rest ih =>
    obtain ⟨k', e'⟩ := p
    by_cases hk : k' = k
    · simp [sessGet, hk] at h
    · simp only [List.cons_append, sessGet, if_neg hk] at h ⊢
      exact ih h

theorem getOrCreate_fst_hit {st : List (Str × SessionEntry)} {k : Str}
    {e : SessionEntry} (m : Str) (t : Nat) (f : Str) (h : sessGet st k = some e) :
    (getOrCreate st k m t f).1 = e.claudeSessionId := by
  simp only [getOrCreate, h]

theorem getOrCreate_found (st : List (Str × SessionEntry)) (id model : Str)
    (now : Nat) (fresh : Str) :
    ∃ e, sessGet (getOrCreate st id model now fresh).2 id = some e ∧
      e.claudeSessionId = (getOrCreate st id model now fresh).1 ∧
      e.lastUsedAt = now := by
  cases h : sessGet st id with
  | some e0 =>
    simp only [getOrCreate, h]
    exact ⟨_, sessGet_sessUpd_self st id _ e0 h, rfl, rfl⟩
  | none =>
    simp only [getOrCreate, h]
    exact ⟨_, sessGet_append_self st id _ h, rfl, rfl⟩

/-- C9: two successive `getOrCreate` calls for the same conversation id
return the same upstream session id, and the stored entry's `lastUsedAt`
does not decrease when the clock does not run backwards. -/
theorem claim_C9 (st : List (Str × SessionEntry)) (id m1 m2 f1 f2 : Str)
    (t1 t2 : Nat) (hmono : t1 ≤ t2) :
    (getOrCreate (getOrCreate st id m1 t1 f1).2 id m2 t2 f2).1
      = (getOrCreate st id m1 t1 f1).1 ∧
    ∀ e1 e2,
      sessGet (getOrCreate st id m1 t1 f1).2 id = some e1 →
      sessGet (getOrCreate (getOrCreate st id m1 t1 f1).2 id m2 t2 f2).2 id = some e2 →
      e1.lastUsedAt ≤ e2.lastUsedAt := by
  obtain ⟨e, he, hsid, ht⟩ := getOrCreate_found st id m1 t1 f1
  obtain ⟨e', he', hsid', ht'⟩ :=
    getOrCreate_found (getOrCreate st id m1 t1 f1).2 id m2 t2 f2
  constructor
  · rw [getOrCreate_fst_hit m2 t2 f2 he, hsid]
  · intro e1 e2 h1 h2
    have he1 : e1 = e := Option.some.inj (h1.symm.trans he)
    have he2 : e2 = e' := Option.some.inj (h2.symm.trans he')
    rw [he1, he2, ht, ht']
    exact hmono

/-- C9 witness: the theorem applied at a concrete store, id and clock. -/
theorem claim_C9_witness :
    (getOrCreate (getOrCreate [] (chars "c") (chars "s") 0 (chars "u1")).2
        (chars "c") (chars "s") 1 (chars "u2")).1
      = (getOrCreate [] (chars "c") (chars "s") 0 (chars "u1")).1 ∧
    ∀ e1 e2,
      sessGet (getOrCreate [] (chars "c") (chars "s") 0 (chars "u1")).2 (chars "c") = some e1 →
      sessGet (getOrCreate (getOrCreate [] (chars "c") (chars "s") 0 (chars "u1")).2
          (chars "c") (chars "s") 1 (chars "u2")).2 (chars "c") = some e2 →
      e1.lastUsedAt ≤ e2.lastUsedAt :=
  claim_C9 [] (chars "c") (chars "s") (chars "s") (chars "u1") (chars "u2") 0 1 (by decide)

/-! ### Model resolution -/

theorem MODEL_MAP_mem (m a : Str) (h : MODEL_MAP m = some a) :
    a = chars "opus" ∨ a = chars "sonnet" ∨ a = chars "haiku" := by
  unfold MODEL_MAP at h
  by_cases h0 : m = chars "claude-opus-4"
  · rw [if_pos h0] at h; injection h with h; subst h; decide
  · rw [if_neg h0] at h
    by_cases h1 : m = chars "claude-opus-4-6"
    · rw [if_pos h1] at h; injection h with h; subst h; decide
    · rw [if_neg h1] at h
      by_cases h2 : m = chars "claude-sonnet-4"
      · rw [if_pos h2] at h; injection h with h; subst h; decide
      · rw [if_neg h2] at h
        by_cases h3 : m = chars "claude-sonnet-4-5"
        · rw [if_pos h3] at h; injection h with h; subst h; decide
        · rw [if_neg h3] at h
          by_cases h4 : m = chars "claude-haiku-4"
          · rw [if_pos h4] at h; injection h with h; subst h; decide
          · rw [if_neg h4] at h
            by_cases h5 : m = chars "claude-code-cli/claude-opus-4"
            · rw [if_pos h5] at h; injection h with h; subst h; decide
            · rw [if_neg h5] at h
              by_cases h6 : m = chars "claude-code-cli/claude-opus-4-6"
              · rw [if_pos h6] at h; injection h with h; subst h; decide
              · rw [if_neg h6] at h
                by_cases h7 : m = chars "claude-code-cli/claude-sonnet-4"
                · rw [if_pos h7] at h; injection h with h; subst h; decide
                · rw [if_neg h7] at h
                  by_cases h8 : m = chars "claude-code-cli/claude-haiku-4"
                  · rw [if_pos h8] at h; injection h with h; subst h; decide
                  · rw [if_neg h8] at h
                    by_cases h9 : m = chars "openai/claude-opus-4"
                    · rw [if_pos h9] at h; injection h with h; subst h; decide
                    · rw [if_neg h9] at h
                      by_cases h10 : m = chars "openai/claude-opus-4-6"
                      · rw [if_pos h10] at h; injection h with h; subst h; decide
                      · rw [if_neg h10] at h
                        by_cases h11 : m = chars "openai/claude-sonnet-4"
                        · rw [if_pos h11] at h; injection h with h; subst h; decide
                        · rw [if_neg h11] at h
                          by_cases h12 : m = chars "openai/claude-sonnet-4-5"
                          · rw [if_pos h12] at h; injection h with h; subst h; decide
                          · rw [if_neg h12] at h
                            by_cases h13 : m = chars "openai/claude-haiku-4"
                            · rw [if_pos h13] at h; injection h with h; subst h; decide
                            · rw [if_neg h13] at h
                              by_cases h14 : m = chars "opus"
                              · rw [if_pos h14] at h; injection h with h; subst h; decide
                              · rw [if_neg h14] at h
                                by_cases h15 : m = chars "sonnet"
                                · rw [if_pos h15] at h; injection h with h; subst h; decide
                                · rw [if_neg h15] at h
                                  by_cases h16 : m = chars "haiku"
                                  · rw [if_pos h16] at h; injection h with h; subst h; decide
                                  · rw [if_neg h16] at h
                                    exact Option.noConfusion h

/-- C3 (amended: only the provider markers `claude-code-cli/` and `openai/`
are stripped on a table miss, not arbitrary prefixes): `extractModel`
returns the table alias on a hit; on a miss it strips a known provider
marker and retries once; on a double miss it returns `"opus"`; its range is
contained in \x7bopus, sonnet, haiku\x7d. -/
theorem claim_C3 (m : Str) :
    (∀ a, MODEL_MAP m = some a → extractModel m = a) ∧
    (MODEL_MAP m = none →
      ∀ a, MODEL_MAP (stripProvider m) = some a → extractModel m = a) ∧
    (MODEL_MAP m = none → MODEL_MAP (stripProvider m) = none →
      extractModel m = chars "opus") ∧
    (extractModel m = chars "opus" ∨ extractModel m = chars "sonnet" ∨
      extractModel m = chars "haiku") := by
  refine ⟨fun a h => by simp [extractModel, h],
    fun h1 a h2 => by simp [extractModel, h1, h2],
    fun h1 h2 => by simp [extractModel, h1, h2], ?_⟩
  cases h1 : MODEL_MAP m with
  | some a =>
    have := MODEL_MAP_mem m a h1
    simpa [extractModel, h1] using this
  | none =>
    cases h2 : MODEL_MAP (stripProvider m) with
    | some a =>
      have := MODEL_MAP_mem _ a h2
      simpa [extractModel, h1, h2] using this
    | none => simp [extractModel, h1, h2]

/-- C3 witness: the theorem applied on a direct hit, a provider-marker
retry, and a double miss. -/
theorem claim_C3_witness :
    extractModel (chars "opus") = chars "opus" ∧
    extractModel (chars "claude-code-cli/claude-sonnet-4-5") = chars "sonnet" ∧
    extractModel (chars "mystery-model") = chars "opus" :=
  ⟨(claim_C3 (chars "opus")).1 (chars "opus") (by decide),
   (claim_C3 (chars "claude-code-cli/claude-sonnet-4-5")).2.1 (by decide)
     (chars "sonnet") (by decide),
   (claim_C3 (chars "mystery-model")).2.2.1 (by decide) (by decide)⟩

/-- C3 counterexample: `"foo/sonnet"` has the form `<prefix>/<name>`, is not
in the table, and `"sonnet"` is mapped, yet `extractModel` does not strip
the unknown prefix and falls through to `"opus"`. -/
theorem claim_C3_counterexample :
    MODEL_MAP (chars "foo/sonnet") = none ∧
    MODEL_MAP (chars "sonnet") = some (chars "sonnet") ∧
    extractModel (chars "foo/sonnet") = chars "opus" ∧
    extractModel (chars "foo/sonnet") ≠ chars "sonnet" := by decide

/-- C4: in the non-streaming no-tools handler, a close without a result
does emit the 500 envelope citing the exit code, but an error event
followed by a late result and close produces a second body write: the
close handler's result branch does not consult `headersSent`. -/
theorem claim_C4 (reqId msg : Str) (r : CliResult) (code : Int) (now : Nat) :
    (runNonStreaming reqId now
        [CliEvent.errorEv msg, CliEvent.resultEv r, CliEvent.closeEv code]).writes
      = [BodyWrite.errJson 500 ⟨msg, chars "server_error"⟩,
         BodyWrite.okJson (cliResultToOpenai r reqId now)] ∧
    (runNonStreaming reqId now [CliEvent.closeEv code]).writes
      = [BodyWrite.errJson 500 (exitErrBody code)] :=
  ⟨rfl, rfl⟩

/-- C7 (amended: `tool_choice` must be part of the input tuple — the prompt
is a pure function of (messages, tools, tool_choice), not of
(messages, tools) alone): two requests equal on those three fields produce
byte-equal prompts whatever their other fields, and the prompt factors
through `messagesToPrompt` applied to the messages and the effective
tool list. -/
theorem claim_C7 (r1 r2 : ORequest) (hm : r1.messages = r2.messages)
    (ht : r1.tools = r2.tools) (hc : r1.tool_choice = r2.tool_choice) :
    (openaiToCli r1).map CliInput.prompt = (openaiToCli r2).map CliInput.prompt ∧
    (openaiToCli r1).map CliInput.prompt
      = messagesToPrompt r1.messages (if hasTools r1 then r1.tools else none) := by
  have hh : hasTools r1 = hasTools r2 := by
    unfold hasTools
    rw [ht, hc]
  have key : ∀ r : ORequest, (openaiToCli r).map CliInput.prompt
      = messagesToPrompt r.messages (if hasTools r then r.tools else none) := by
    intro r
    simp only [openaiToCli, Option.map_map]
    cases messagesToPrompt r.messages (if hasTools r then r.tools else none) <;> rfl
  refine ⟨?_, key r1⟩
  rw [key r1, key r2, hm, ht, hh]

/-- C7 witness: the theorem applied to two concrete requests differing only
in model, user and stream. -/
theorem claim_C7_witness :
    (openaiToCli ⟨[OMessage.user (OContent.str (chars "hi"))], none, none,
        chars "m1", none, false⟩).map CliInput.prompt
      = (openaiToCli ⟨[OMessage.user (OContent.str (chars "hi"))], none, none,
          chars "m2", some (chars "u"), true⟩).map CliInput.prompt ∧
    (openaiToCli ⟨[OMessage.user (OContent.str (chars "hi"))], none, none,
        chars "m1", none, false⟩).map CliInput.prompt
      = messagesToPrompt [OMessage.user (OContent.str (chars "hi"))]
          (if hasTools ⟨[OMessage.user (OContent.str (chars "hi"))], none, none,
              chars "m1", none, false⟩ then none else none) :=
  claim_C7 _ _ rfl rfl rfl

/-! ### Prompt synthesis throws on unparseable tool-call arguments -/

theorem serReqCalls_none {tc : ReqToolCall} (tcs : List ReqToolCall) (htc : tc ∈ tcs)
    (hbad : jsonParse tc.arguments = none) : serReqCalls tcs = none := by
  induction tcs with
  | nil => cases htc
  | cons hd tl ih =>
    rcases List.mem_cons.mp htc with h | h
    · have hsc : serReqCall hd = none := by
        rw [← h]
        simp [serReqCall, hbad]
      cases htl : serReqCalls tl <;> simp [serReqCalls, hsc, htl]
    · have htl := ih h
      cases hsc : serReqCall hd <;> simp [serReqCalls, hsc, htl]

theorem assistantPart_none {tc : ReqToolCall} (c : Option OContent)
    (tcs : List ReqToolCall) (htc : tc ∈ tcs)
    (hbad : jsonParse tc.arguments = none) : assistantPart c tcs = none := by
  have hlen : tcs.length > 0 := List.length_pos.mpr (List.ne_nil_of_mem htc)
  have hs := serReqCalls_none tcs htc hbad
  simp [assistantPart, hlen, hs]

theorem mem_dropWhile_of_neg {α : Type} (p : α → Bool) {x : α} :
    ∀ {l : List α}, x ∈ l → p x = false → x ∈ l.dropWhile p := by
  intro l
  induction l with
  | nil => intro h _; cases h
  | cons a t ih =>
    intro hm hp
    cases ha : p a with
    | true =>
      rw [List.dropWhile_cons_of_pos ha]
      rcases List.mem_cons.mp hm with h | h
      · subst h; rw [hp] at ha; cases ha
      · exact ih h hp
    | false =>
      rw [List.dropWhile_cons_of_neg (by simp [ha])]
      exact hm

theorem promptPartsF_none (c : Option OContent) (tcs : List ReqToolCall)
    (hap : assistantPart c tcs = none) :
    ∀ f msgs, msgs.length < f → OMessage.assistant c tcs ∈ msgs →
      promptPartsF f msgs = none := by
  intro f
  induction f with
  | zero => intro msgs h _; omega
  | succ f ih =>
    intro msgs hlen hmem
    cases msgs with
    | nil => cases hmem
    | cons m rest =>
      have hlen' : rest.length < f := by
        simp only [List.length_cons] at hlen
        omega
      cases m with
      | system cc =>
        have hr : OMessage.assistant c tcs ∈ rest := by
          rcases List.mem_cons.mp hmem with h | h
          · exact absurd h (by simp)
          · exact h
        rw [show promptPartsF (f+1) (OMessage.system cc :: rest)
            = (promptPartsF f rest).map (fun ps =>
                (chars "<system>\n" ++ extractText cc ++ chars "\n</system>\n") :: ps)
          from rfl, ih rest hlen' hr]
        rfl
      | user cc =>
        have hr : OMessage.assistant c tcs ∈ rest := by
          rcases List.mem_cons.mp hmem with h | h
          · exact absurd h (by simp)
          · exact h
        rw [show promptPartsF (f+1) (OMessage.user cc :: rest)
            = (promptPartsF f rest).map (fun ps => extractText cc :: ps) from rfl,
          ih rest hlen' hr]
        rfl
      | assistant c' tcs' =>
        rcases List.mem_cons.mp hmem with h | h
        · injection h with h1 h2
          subst h1; subst h2
          cases hr : promptPartsF f rest <;>
            simp [promptPartsF, hap, hr]
        · cases hap' : assistantPart c' tcs' <;>
            cases hr : promptPartsF f rest <;>
              simp_all [promptPartsF, ih rest hlen' h]
      | tool id cc =>
        have hr : OMessage.assistant c tcs ∈ rest := by
          rcases List.mem_cons.mp hmem with h | h
          · exact absurd h (by simp)
          · exact h
        have hr' : OMessage.assistant c tcs ∈ rest.dropWhile isToolMsg :=
          mem_dropWhile_of_neg isToolMsg hr (by simp [isToolMsg])
        have hlen'' : (rest.dropWhile isToolMsg).length < f :=
          lt_of_le_of_lt (List.dropWhile_suffix isToolMsg).length_le hlen'
        rw [show promptPartsF (f+1) (OMessage.tool id cc :: rest)
            = (promptPartsF f (rest.dropWhile isToolMsg)).map (fun ps =>
                formatToolResults (OMessage.tool id cc :: rest.takeWhile isToolMsg) :: ps)
          from rfl, ih _ hlen'' hr']
        rfl
      | other =>
        have hr : OMessage.assistant c tcs ∈ rest := by
          rcases List.mem_cons.mp hmem with h | h
          · exact absurd h (by simp)
          · exact h
        rw [show promptPartsF (f+1) (OMessage.other :: rest)
            = promptPartsF f rest from rfl, ih rest hlen' hr]

/-- C10: a request whose messages contain an assistant message with a tool
call whose stringified arguments are not valid JSON makes `messagesToPrompt`
(hence `openaiToCli`) throw, so `handleChatCompletions` answers with the
500 catch-all rather than the 400 validation error. -/
theorem claim_C10 (r : ORequest) {c : Option OContent} {tcs : List ReqToolCall}
    {tc : ReqToolCall} (hmem : OMessage.assistant c tcs ∈ r.messages)
    (htc : tc ∈ tcs) (hbad : jsonParse tc.arguments = none) :
    openaiToCli r = none ∧ handleChatCompletions r = HandlerOut.serverErr := by
  have hap := assistantPart_none c tcs htc hbad
  have hpp := promptPartsF_none c tcs hap (r.messages.length + 1) r.messages
    (by omega) hmem
  have hmp : ∀ tools, messagesToPrompt r.messages tools = none := by
    intro tools
    simp [messagesToPrompt, promptParts, hpp]
  have hcli : openaiToCli r = none := by
    simp [openaiToCli, hmp]
  have hne : r.messages.isEmpty = false := by
    cases hms : r.messages with
    | nil => rw [hms] at hmem; cases hmem
    | cons a b => rfl
  refine ⟨hcli, ?_⟩
  simp [handleChatCompletions, hcli, hne]

/-- C10 witness: the theorem applied to a concrete request whose single
assistant message carries a tool call with non-JSON arguments. -/
theorem claim_C10_witness :
    openaiToCli ⟨[OMessage.assistant none [⟨chars "i", chars "f", chars "oops"⟩]],
        none, none, chars "m", none, false⟩ = none ∧
    handleChatCompletions ⟨[OMessage.assistant none [⟨chars "i", chars "f", chars "oops"⟩]],
        none, none, chars "m", none, false⟩ = HandlerOut.serverErr :=
  claim_C10 _ (List.mem_singleton.mpr rfl) (List.mem_singleton.mpr rfl) (by decide)

/-! ### Tool-protocol error handling (C6) -/

/-- C6: `parseToolCalls` skips a block whose body is not valid JSON without
aborting (the skip clause of `buildCallsAux`), honours remaining well-formed
blocks, and returns as text content the input with every block removed and
trimmed, `none` when that leaves the empty string; in particular the claim's
concrete instance yields zero calls and text `"real text"`, and a malformed
block followed by a valid one yields exactly the valid call. -/
theorem claim_C6 (sup : Nat → Str) (text : Str) :
    (∀ k b bs, jsonParse b = none →
      buildCallsAux sup k (b :: bs) = buildCallsAux sup k bs) ∧
    (parseToolCalls sup text).textContent
      = (if (trimWs (removeBlocks text)).isEmpty then none
         else some (trimWs (removeBlocks text))) ∧
    (parseToolCalls (fun _ => chars "0")
        (chars "<tool_call>\x7bnot json\x7d</tool_call> real text")).toolCalls = [] ∧
    (parseToolCalls (fun _ => chars "0")
        (chars "<tool_call>\x7bnot json\x7d</tool_call> real text")).textContent
      = some (chars "real text") ∧
    parseToolCalls (fun _ => chars "0")
        (chars "<tool_call>\x7bbad\x7d</tool_call>\n<tool_call>\x7b\"name\": \"f\", \"arguments\": \x7b\x7d\x7d</tool_call>\ntail")
      = ⟨[⟨Json.str (chars "call_0"), some (Json.str (chars "f")),
            some (chars "\x7b\x7d")⟩],
         some (chars "tail")⟩ :=
  ⟨fun k b bs hb => by simp [buildCallsAux, hb], rfl, by decide, by decide, by decide⟩

/-- C6 witness: the skip clause applied to a concrete malformed body. -/
theorem claim_C6_witness :
    buildCallsAux (fun _ => chars "0") 0 (chars "\x7bbad\x7d" :: [chars "\x7b\x7d"])
      = buildCallsAux (fun _ => chars "0") 0 [chars "\x7b\x7d"] :=
  (claim_C6 (fun _ => chars "0") []).1 0 (chars "\x7bbad\x7d") [chars "\x7b\x7d"]
    (by decide)

/-! ### Buffered-replay close handler (C2, C5) -/

theorem isEmpty_false_of_ne_nil {cs : Str} (h : cs ≠ []) : cs.isEmpty = false := by
  cases hc : cs
  · exact absurd hc h
  · rfl

/-- C2: on close in tools-active mode the response text is `result.result`
when a result event arrived with a non-empty `result` field, otherwise the
concatenation of the buffered deltas; whenever that chosen text is
non-empty it is exactly the text handed to `parseToolCalls`, on the
streaming and the non-streaming sub-path alike. -/
theorem claim_C2 (stream : Bool) (sup : Nat → Str) (deltas : List Str)
    (fr : Option CliResult) (code : Int) (reqId lastModel : Str) (now : Nat) :
    (∀ r, fr = some r → r.result ≠ [] → responseTextOf deltas fr = r.result) ∧
    (∀ r, fr = some r → r.result = [] → responseTextOf deltas fr = concatStrs deltas) ∧
    (fr = none → responseTextOf deltas fr = concatStrs deltas) ∧
    (responseTextOf deltas fr ≠ [] →
      (handleToolAwareClose stream sup deltas fr code reqId lastModel now).parsedText
        = some (responseTextOf deltas fr)) := by
  refine ⟨?_, ?_, ?_, ?_⟩
  · intro r h hne
    rw [h]
    simp [responseTextOf, isEmpty_false_of_ne_nil hne]
  · intro r h hr
    rw [h]
    simp [responseTextOf, hr]
  · intro h
    rw [h]
    rfl
  · intro hne
    have hie := isEmpty_false_of_ne_nil hne
    cases stream with
    | true => simp [handleToolAwareClose, hie]
    | false =>
      cases fr with
      | some r => simp [handleToolAwareClose, hie]
      | none =>
        by_cases hp :
            (parseToolCalls sup (responseTextOf deltas none)).toolCalls.length > 0 <;>
          simp [handleToolAwareClose, hie, hp]

/-- C2 witness: the theorem applied with a concrete non-empty result and a
concrete buffer. -/
theorem claim_C2_witness :
    responseTextOf [chars "hi"] (some ⟨chars "res", none, none⟩) = chars "res" ∧
    (handleToolAwareClose true (fun _ => chars "0") [chars "hi"]
        (some ⟨chars "res", none, none⟩) 0 (chars "r") (chars "m") 0).parsedText
      = some (responseTextOf [chars "hi"] (some ⟨chars "res", none, none⟩)) :=
  ⟨(claim_C2 true (fun _ => chars "0") [chars "hi"] (some ⟨chars "res", none, none⟩)
      0 (chars "r") (chars "m") 0).1 ⟨chars "res", none, none⟩ rfl (by decide),
   (claim_C2 true (fun _ => chars "0") [chars "hi"] (some ⟨chars "res", none, none⟩)
      0 (chars "r") (chars "m") 0).2.2.2 (by decide)⟩

theorem finish_stream (sup : Nat → Str) (deltas : List Str) (fr : Option CliResult)
    (code : Int) (reqId lastModel : Str) (now : Nat)
    (hie : (responseTextOf deltas fr).isEmpty = false) :
    finishOf (handleToolAwareClose true sup deltas fr code reqId lastModel now).out
      = if (parseToolCalls sup (responseTextOf deltas fr)).toolCalls.length > 0
        then some (chars "tool_calls") else some (chars "stop") := by
  by_cases hp : (parseToolCalls sup (responseTextOf deltas fr)).toolCalls.length > 0
  · simp [handleToolAwareClose, hie, hp, finishOf, buildToolCallChunks,
      List.getLast?_concat]
  · simp [handleToolAwareClose, hie, hp, finishOf, createDoneChunk]

theorem finish_nonstream_result (sup : Nat → Str) (deltas : List Str) (r : CliResult)
    (code : Int) (reqId lastModel : Str) (now : Nat)
    (hie : (responseTextOf deltas (some r)).isEmpty = false) :
    finishOf (handleToolAwareClose false sup deltas (some r) code reqId lastModel now).out
      = if (parseToolCalls sup r.result).toolCalls.length > 0
        then some (chars "tool_calls") else some (chars "stop") := by
  by_cases hp : (parseToolCalls sup r.result).toolCalls.length > 0 <;>
    simp [handleToolAwareClose, hie, finishOf, cliResultToOpenaiWithTools,
      cliResultToOpenai, hp]

theorem finish_nonstream_noresult (sup : Nat → Str) (deltas : List Str)
    (code : Int) (reqId lastModel : Str) (now : Nat)
    (hie : (responseTextOf deltas none).isEmpty = false) :
    finishOf (handleToolAwareClose false sup deltas none code reqId lastModel now).out
      = if (parseToolCalls sup (responseTextOf deltas none)).toolCalls.length > 0
        then some (chars "tool_calls") else some (chars "stop") := by
  by_cases hp : (parseToolCalls sup (responseTextOf deltas none)).toolCalls.length > 0 <;>
    simp [handleToolAwareClose, hie, finishOf, hp]

/-- C5 (amended: in the non-streaming sub-path with a result event, the
finish reason is governed by the tool calls parsed from `result.result`,
not from the chosen response text): the streaming final chunk and the
non-streaming body without a result event carry `"tool_calls"` iff the
chosen text parsed to at least one call and `"stop"` otherwise, while the
non-streaming body built from a result event carries `"tool_calls"` iff
`result.result` parsed to at least one call and `"stop"` otherwise. -/
theorem claim_C5 (sup : Nat → Str) (deltas : List Str) (fr : Option CliResult)
    (code : Int) (reqId lastModel : Str) (now : Nat)
    (hne : responseTextOf deltas fr ≠ []) :
    (finishOf (handleToolAwareClose true sup deltas fr code reqId lastModel now).out
        = some (chars "tool_calls")
      ↔ (parseToolCalls sup (responseTextOf deltas fr)).toolCalls ≠ []) ∧
    (finishOf (handleToolAwareClose true sup deltas fr code reqId lastModel now).out
        = some (chars "stop")
      ↔ (parseToolCalls sup (responseTextOf deltas fr)).toolCalls = []) ∧
    (fr = none →
      (finishOf (handleToolAwareClose false sup deltas fr code reqId lastModel now).out
          = some (chars "tool_calls")
        ↔ (parseToolCalls sup (responseTextOf deltas fr)).toolCalls ≠ [])) ∧
    (fr = none →
      (finishOf (handleToolAwareClose false sup deltas fr code reqId lastModel now).out
          = some (chars "stop")
        ↔ (parseToolCalls sup (responseTextOf deltas fr)).toolCalls = [])) ∧
    (∀ r, fr = some r →
      (finishOf (handleToolAwareClose false sup deltas fr code reqId lastModel now).out
          = some (chars "tool_calls")
        ↔ (parseToolCalls sup r.result).toolCalls ≠ [])) ∧
    (∀ r, fr = some r →
      (finishOf (handleToolAwareClose false sup deltas fr code reqId lastModel now).out
          = some (chars "stop")
        ↔ (parseToolCalls sup r.result).toolCalls = [])) := by
  have hie := isEmpty_false_of_ne_nil hne
  have bridge : ∀ (tcs : List PToolCall),
      ((if tcs.length > 0 then some (chars "tool_calls") else some (chars "stop"))
          = some (chars "tool_calls") ↔ tcs ≠ []) ∧
      ((if tcs.length > 0 then some (chars "tool_calls") else some (chars "stop"))
          = some (chars "stop") ↔ tcs = []) := by
    intro tcs
    by_cases hp : tcs.length > 0
    · rw [if_pos hp]
      have hnn : tcs ≠ [] := List.length_pos.mp hp
      exact ⟨⟨fun _ => hnn, fun _ => rfl⟩,
        ⟨fun h => absurd h (by decide), fun h => absurd h hnn⟩⟩
    · rw [if_neg hp]
      have hn : tcs = [] := List.length_eq_zero.mp (by omega)
      exact ⟨⟨fun h => absurd h (by decide), fun h => absurd hn h⟩,
        ⟨fun _ => hn, fun _ => rfl⟩⟩
  refine ⟨?_, ?_, ?_, ?_, ?_, ?_⟩
  · rw [finish_stream sup deltas fr code reqId lastModel now hie]
    exact (bridge _).1
  · rw [finish_stream sup deltas fr code reqId lastModel now hie]
    exact (bridge _).2
  · intro h
    subst h
    rw [finish_nonstream_noresult sup deltas code reqId lastModel now hie]
    exact (bridge _).1
  · intro h
    subst h
    rw [finish_nonstream_noresult sup deltas code reqId lastModel now hie]
    exact (bridge _).2
  · intro r h
    subst h
    rw [finish_nonstream_result sup deltas r code reqId lastModel now hie]
    exact (bridge _).1
  · intro r h
    subst h
    rw [finish_nonstream_result sup deltas r code reqId lastModel now hie]
    exact (bridge _).2

/-- C5 witness: the theorem applied with an empty result-event list and a
concrete buffer. -/
theorem claim_C5_witness :
    responseTextOf [chars "hi"] none ≠ [] ∧
    (finishOf (handleToolAwareClose true (fun _ => chars "0") [chars "hi"] none 0
        (chars "r") (chars "m") 0).out = some (chars "tool_calls")
      ↔ (parseToolCalls (fun _ => chars "0")
          (responseTextOf [chars "hi"] none)).toolCalls ≠ []) :=
  ⟨by decide,
   (claim_C5 (fun _ => chars "0") [chars "hi"] none 0 (chars "r") (chars "m") 0
      (by decide)).1⟩

/-- C5 counterexample: a result event with an empty `result` field plus a
buffered tool-call block; the chosen response text parses to one tool call,
yet the non-streaming body reports finish_reason `"stop"`, because the body
is built from `result.result` rather than the chosen text. -/
theorem claim_C5_counterexample :
    (parseToolCalls (fun _ => chars "0")
        (responseTextOf [chars "<tool_call>\x7b\"name\": \"f\"\x7d</tool_call>"]
          (some ⟨[], none, none⟩))).toolCalls ≠ [] ∧
    finishOf (handleToolAwareClose false (fun _ => chars "0")
        [chars "<tool_call>\x7b\"name\": \"f\"\x7d</tool_call>"]
        (some ⟨[], none, none⟩) 0 (chars "r") (chars "m") 0).out
      = some (chars "stop") := by decide

/-! ### Scanner groundwork: where a pattern can match across an append -/

theorem isPrefixOf_append_cases {p s b : Str} (h : p.isPrefixOf (s ++ b) = true) :
    s.isPrefixOf p = true ∨ p.isPrefixOf s = true := by
  rw [List.isPrefixOf_iff_prefix] at h
  rcases le_or_lt s.length p.length with hl | hl
  · left
    rw [List.isPrefixOf_iff_prefix]
    exact List.prefix_of_prefix_length_le (s.prefix_append b) h hl
  · right
    rw [List.isPrefixOf_iff_prefix]
    exact List.prefix_of_prefix_length_le h (s.prefix_append b) (le_of_lt hl)

theorem SafePre_of_occurs_borderFree {pat xs : Str} (hb : borderFreeB pat = true)
    (ho : occurs pat xs = false) (zs : Str) : SafePre pat xs (pat ++ zs) := by
  intro n hn
  by_contra hc
  rw [Bool.not_eq_false] at hc
  have hsl : (xs.drop n).length = xs.length - n := List.length_drop n xs
  rcases le_or_lt pat.length (xs.drop n).length with hl | hl
  · have hfit : pat.isPrefixOf (xs.drop n) = true :=
      isPrefixOf_of_append_right hc hl
    rw [occurs_of_drop hfit] at ho
    exact absurd ho (by simp)
  · have hs_pref : (xs.drop n).isPrefixOf pat = true := by
      rw [List.isPrefixOf_iff_prefix] at hc ⊢
      exact List.prefix_of_prefix_length_le ((xs.drop n).prefix_append _) hc
        (le_of_lt hl)
    obtain ⟨r, hr⟩ := List.isPrefixOf_iff_prefix.mp hs_pref
    have hrd : pat.drop (xs.drop n).length = r := by
      rw [← hr, List.drop_left]
    have hrp : (pat.drop (xs.drop n).length).isPrefixOf pat = true := by
      rw [hrd, List.isPrefixOf_iff_prefix]
      rw [List.isPrefixOf_iff_prefix] at hc
      nth_rewrite 1 [← hr] at hc
      have hr2 : r <+: pat ++ zs := (List.prefix_append_right_inj (xs.drop n)).mp hc
      exact List.prefix_of_prefix_length_le hr2 (pat.prefix_append zs)
        (by rw [← hr]; simp)
    have h1 : 1 ≤ (xs.drop n).length := by omega
    simp only [borderFreeB, List.all_eq_true, List.mem_range] at hb
    have := hb (xs.drop n).length (by omega)
    rcases Bool.or_eq_true_iff.mp this with h0 | hnp
    · have := of_decide_eq_true h0
      omega
    · rw [hrp] at hnp
      exact absurd hnp (by simp)

theorem dropToSub_append_safe {pat xs ys : Str} (h : SafePre pat xs ys) :
    dropToSub pat (xs ++ ys) = dropToSub pat ys := by
  induction xs with
  | nil => rfl
  | cons c t ih =>
    rw [List.cons_append, dropToSub]
    rw [if_neg (by
      have := h 0 (by simp)
      simp only [List.drop_zero] at this
      rw [List.cons_append] at this
      simp [this])]
    exact ih (fun n hn => by
      have := h (n + 1) (by simp; omega)
      simpa using this)

theorem dropToSub_of_isPrefixOf {pat cs : Str} (h : pat.isPrefixOf cs = true) :
    dropToSub pat cs = some cs := by
  cases cs with
  | nil => simp [dropToSub, h]
  | cons c t => simp [dropToSub, h]

theorem dropToSub_none_of_not_occurs {pat cs : Str} (h : occurs pat cs = false) :
    dropToSub pat cs = none := by
  induction cs with
  | nil => simp only [occurs] at h; simp [dropToSub, h]
  | cons c t ih =>
    simp only [occurs, Bool.or_eq_false_iff] at h
    rw [dropToSub, if_neg (by simp [h.1])]
    exact ih h.2

theorem noHoldB_tail {pat : Str} {c : Char} {t : Str}
    (h : noHoldB pat (c :: t) = true) : noHoldB pat t = true := by
  simp only [noHoldB, List.all_eq_true, List.mem_range] at h ⊢
  intro n hn
  have := h (n + 1) (by simp; omega)
  simpa using this

theorem occurs_append_free {pat a b : Str} (ha : noHoldB pat a = true)
    (hb : occurs pat b = false) : occurs pat (a ++ b) = false := by
  induction a with
  | nil => simpa using hb
  | cons c t ih =>
    rw [List.cons_append, occurs, Bool.or_eq_false_iff]
    refine ⟨?_, ih (noHoldB_tail ha) ⟩
    by_contra hc
    rw [Bool.not_eq_false] at hc
    rw [← List.cons_append] at hc
    simp only [noHoldB, List.all_eq_true, List.mem_range] at ha
    have h0 := ha 0 (by simp)
    simp only [List.drop_zero, Bool.not_eq_true', Bool.or_eq_false_iff] at h0
    rcases isPrefixOf_append_cases hc with h1 | h1
    · rw [h1] at h0; exact absurd h0.1 (by simp)
    · rw [h1] at h0; exact absurd h0.2 (by simp)

theorem occurs_append_elem {pat xs : Str} {c : Char} (h : occurs pat xs = false)
    (hp : pat ≠ []) (hl : pat.getLast? ≠ some c) :
    occurs pat (xs ++ [c]) = false := by
  induction xs with
  | nil =>
    simp only [List.nil_append, occurs, Bool.or_eq_false_iff]
    constructor
    · by_contra hc
      rw [Bool.not_eq_false] at hc
      have hpre := List.isPrefixOf_iff_prefix.mp hc
      have hlen := hpre.length_le
      simp only [List.length_cons, List.length_nil] at hlen
      have hplen : pat.length = 1 := by
        cases hpl : pat.length with
        | zero => exact absurd (List.length_eq_zero.mp hpl) hp
        | succ k => omega
      have hpe : pat = [c] := hpre.eq_of_length (by simp [hplen])
      rw [hpe] at hl
      simp at hl
    · cases pat with
      | nil => exact absurd rfl hp
      | cons d t => rfl
  | cons x t ih =>
    rw [List.cons_append, occurs, Bool.or_eq_false_iff]
    refine ⟨?_, ih (not_occurs_tail h)⟩
    by_contra hc
    rw [Bool.not_eq_false, ← List.cons_append] at hc
    have hlen := isPrefixOf_length_le hc
    rcases le_or_lt pat.length (x :: t).length with hle | hlt
    · have hocc := occurs_of_isPrefixOf (isPrefixOf_of_append_right hc hle)
      rw [hocc] at h
      exact absurd h (by simp)
    · obtain ⟨r, hr⟩ := List.isPrefixOf_iff_prefix.mp hc
      have hrlen : r.length = 0 := by
        have hcl := congrArg List.length hr
        simp only [List.length_append, List.length_cons, List.length_nil] at hcl hlen hlt ⊢
        omega
      rw [List.length_eq_zero.mp hrlen, List.append_nil] at hr
      rw [hr, List.getLast?_concat] at hl
      exact absurd rfl hl

/-! ### The lazy close-tag search -/

theorem stripAfterWs_self (pat rest : Str) (c : Char) (t : Str) (hp : pat = c :: t)
    (hc : isJsWs c = false) : stripAfterWs pat (pat ++ rest) = some rest := by
  subst hp
  rw [List.cons_append, stripAfterWs, hc]
  rw [if_neg (by simp)]
  rw [← List.cons_append]
  rw [if_pos (isPrefixOf_self_append (c :: t) rest)]
  rw [List.drop_left]

theorem stripAfterWs_none : ∀ (u : Str), occurs closeTag (u ++ ['}']) = false →
    ∀ v, stripAfterWs closeTag (u ++ ('}' :: v)) = none := by
  intro u
  induction u with
  | nil =>
    intro _ v
    rw [List.nil_append, stripAfterWs]
    rw [show isJsWs '}' = false from rfl]
    rw [if_neg (by simp)]
    rw [if_neg (by
      intro hc
      have := mem_of_isPrefixOf_append (u := ([] : Str)) (by simpa using hc)
        (by decide)
      revert this
      decide)]
  | cons c u' ih =>
    intro h v
    rw [List.cons_append, stripAfterWs]
    cases hw : isJsWs c with
    | true =>
      rw [if_pos (by simp [hw])]
      rw [List.cons_append] at h
      exact ih (not_occurs_tail h) v
    | false =>
      rw [if_neg (by simp [hw])]
      rw [if_neg ?_]
      intro hc
      rw [← List.cons_append] at hc
      rcases le_or_lt closeTag.length ((c :: u') ++ ['}']).length with hle | hlt
      · have hc2 : closeTag.isPrefixOf ((c :: u') ++ ['}']) = true := by
          have : (c :: u') ++ ('}' :: v) = ((c :: u') ++ ['}']) ++ v := by
            simp
          rw [this] at hc
          exact isPrefixOf_of_append_right hc hle
        rw [occurs_of_isPrefixOf hc2] at h
        exact absurd h (by simp)
      · have hmem : '}' ∈ closeTag :=
          mem_of_isPrefixOf_append hc (by
            simp only [List.length_append, List.length_cons, List.length_nil] at hlt ⊢
            omega)
        revert hmem
        decide

theorem closeSearch_exact : ∀ (ib more : Str),
    occurs closeTag (ib ++ ['}']) = false →
    closeSearch (ib ++ ('}' :: ('\n' :: (closeTag ++ more)))) = some (ib ++ ['}'], more) := by
  intro ib
  induction ib with
  | nil =>
    intro more _
    rw [List.nil_append, closeSearch]
    rw [if_pos rfl]
    have hs : stripAfterWs closeTag ('\n' :: (closeTag ++ more)) = some more := by
      rw [stripAfterWs]
      rw [if_pos (by decide)]
      exact stripAfterWs_self closeTag more '<' (chars "/tool_call>") rfl (by decide)
    rw [hs]
    rfl
  | cons c ib' ih =>
    intro more h
    rw [List.cons_append, closeSearch]
    by_cases hc : c = '}'
    · rw [if_pos hc]
      have hstrip : stripAfterWs closeTag (ib' ++ ('}' :: ('\n' :: (closeTag ++ more))))
          = none := by
        refine stripAfterWs_none ib' ?_ _
        rw [List.cons_append] at h
        exact not_occurs_tail h
      rw [hstrip]
      rw [ih more (by rw [List.cons_append] at h; exact not_occurs_tail h)]
      rfl
    · rw [if_neg hc]
      rw [ih more (by rw [List.cons_append] at h; exact not_occurs_tail h)]
      rfl

/-! ### Trimming lemmas -/

theorem trimWsR_append_ws {xs : Str} {c : Char} (h : isJsWs c = true) :
    trimWsR (xs ++ [c]) = trimWsR xs := by
  unfold trimWsR
  rw [List.reverse_append]
  simp [List.dropWhile_cons, h]

theorem trimWsR_of_getLast_not_ws {xs : Str} {c : Char} (h : xs.getLast? = some c)
    (hc : isJsWs c = false) : trimWsR xs = xs := by
  unfold trimWsR
  cases hr : xs.reverse with
  | nil =>
    rw [List.reverse_eq_nil_iff.mp hr]
    rfl
  | cons d t =>
    have hd : d = c := by
      have hh := List.head?_reverse xs
      rw [hr, h] at hh
      simpa using hh
    rw [List.dropWhile_cons_of_neg (by simp [hd, hc])]
    rw [← hr, List.reverse_reverse]

theorem trimWsL_head_not_ws {xs : Str} {c : Char} {t : Str} (h : xs = c :: t)
    (hc : isJsWs c = false) : trimWsL xs = xs := by
  subst h
  simp [trimWsL, List.dropWhile_cons, hc]

theorem trimWsL_append_head {xs ys : Str} {c : Char} {t : Str} (h : ys = c :: t)
    (hc : isJsWs c = false) : trimWsL (xs ++ ys) = trimWsL xs ++ ys := by
  unfold trimWsL
  rw [List.dropWhile_append]
  split
  · next he =>
    rw [List.isEmpty_iff.mp he, List.nil_append]
    subst h
    simp [List.dropWhile_cons, hc]
  · rfl

/-! ### The block scanner on round-trip shapes -/

theorem scanBlocksF_nil {cs : Str} (h : occurs openTag cs = false) (f : Nat) :
    scanBlocksF f cs = [] := by
  cases f with
  | zero => rfl
  | succ f => simp [scanBlocksF, dropToSub_none_of_not_occurs h]

theorem scanBlocksF_step (g ib rest2 : Str) (f : Nat)
    (hg : occurs openTag g = false)
    (hcl : occurs closeTag (ib ++ ['}']) = false) :
    scanBlocksF (f + 1)
      (g ++ (openTag ++ ('\n' :: (('{' :: (ib ++ ['}'])) ++ ('\n' :: (closeTag ++ rest2))))))
      = ('{' :: (ib ++ ['}'])) :: scanBlocksF f rest2 := by
  have h1 : dropToSub openTag
      (g ++ (openTag ++ ('\n' :: (('{' :: (ib ++ ['}'])) ++ ('\n' :: (closeTag ++ rest2))))))
      = some (openTag ++ ('\n' :: (('{' :: (ib ++ ['}'])) ++ ('\n' :: (closeTag ++ rest2))))) := by
    rw [dropToSub_append_safe (SafePre_of_occurs_borderFree (by decide) hg _)]
    exact dropToSub_of_isPrefixOf (isPrefixOf_self_append _ _)
  simp only [scanBlocksF, h1, List.drop_left]
  have h2 : trimWsL ('\n' :: (('{' :: (ib ++ ['}'])) ++ ('\n' :: (closeTag ++ rest2))))
      = '{' :: ((ib ++ ['}']) ++ ('\n' :: (closeTag ++ rest2))) := by
    simp [trimWsL, List.dropWhile_cons, (by decide : isJsWs '\n' = true),
      (by decide : isJsWs '\x7b' = false)]
  rw [h2]
  simp only [if_true]
  have h3 : (ib ++ ['}']) ++ ('\n' :: (closeTag ++ rest2))
      = ib ++ ('}' :: ('\n' :: (closeTag ++ rest2))) := by
    simp
  rw [h3, closeSearch_exact ib rest2 hcl]

theorem blockOf_eq (tc : ReqToolCall) :
    blockOf tc = (openTag ++ ('\n' :: blockBody tc) ++ ['\n']) ++ closeTag := by
  simp [blockOf]

theorem blockOf_getLast (tc : ReqToolCall) : (blockOf tc).getLast? = some '>' := by
  rw [blockOf_eq]
  rw [List.getLast?_append_of_ne_nil _ (by decide)]
  decide

theorem callsCat'_getLast (tcs : List ReqToolCall) (h : tcs ≠ []) :
    (callsCat' tcs).getLast? = some '>' := by
  induction tcs with
  | nil => exact absurd rfl h
  | cons tc tl ih =>
    cases tl with
    | nil => exact blockOf_getLast tc
    | cons tc2 rest =>
      have hne : callsCat' (tc2 :: rest) ≠ [] := by
        intro he
        have hg := ih (by simp)
        rw [he] at hg
        simp at hg
      rw [show callsCat' (tc :: tc2 :: rest)
          = blockOf tc ++ ('\n' :: callsCat' (tc2 :: rest)) from rfl]
      rw [List.getLast?_append_of_ne_nil _ (by simp)]
      rw [show ('\n' :: callsCat' (tc2 :: rest))
          = ['\n'] ++ callsCat' (tc2 :: rest) from rfl]
      rw [List.getLast?_append_of_ne_nil _ hne]
      exact ih (by simp)

theorem callsCat'_head (tcs : List ReqToolCall) (h : tcs ≠ []) :
    ∃ t, callsCat' tcs = '<' :: t := by
  cases tcs with
  | nil => exact absurd rfl h
  | cons tc tl =>
    cases tl with
    | nil => exact ⟨_, rfl⟩
    | cons tc2 rest => exact ⟨_, rfl⟩

theorem callsCat'_length_ge (tcs : List ReqToolCall) :
    tcs.length ≤ (callsCat' tcs).length := by
  have hop : openTag.length = 11 := by decide
  induction tcs with
  | nil => simp [callsCat']
  | cons tc tl ih =>
    cases tl with
    | nil =>
      simp only [callsCat', blockOf, List.length_cons, List.length_append,
        List.length_nil, hop]
      omega
    | cons tc2 rest =>
      rw [show callsCat' (tc :: tc2 :: rest)
          = blockOf tc ++ ('\n' :: callsCat' (tc2 :: rest)) from rfl]
      simp only [List.length_cons, List.length_append] at ih ⊢
      omega

theorem scanBlocksF_calls (tail : Str) (htail : occurs openTag tail = false) :
    ∀ (tcs : List ReqToolCall) (g : Str) (f : Nat), tcs.length < f → tcs ≠ [] →
    occurs openTag g = false →
    (∀ tc ∈ tcs, ∃ ib, blockBody tc = '{' :: (ib ++ ['}']) ∧
      occurs closeTag (ib ++ ['}']) = false) →
    scanBlocksF f (g ++ (callsCat' tcs ++ tail)) = tcs.map blockBody := by
  intro tcs
  induction tcs with
  | nil => intro g f _ hne _ _; exact absurd rfl hne
  | cons tc tl ih =>
    intro g f hf _ hg hblocks
    obtain ⟨ib, hib, hcl⟩ := hblocks tc (by simp)
    cases f with
    | zero => simp at hf
    | succ f =>
      cases tl with
      | nil =>
        have hshape : g ++ (callsCat' [tc] ++ tail)
            = g ++ (openTag ++ ('\n' :: (('{' :: (ib ++ ['}']))
                ++ ('\n' :: (closeTag ++ tail))))) := by
          simp only [callsCat', blockOf, hib, List.append_assoc, List.cons_append, List.nil_append]
        rw [hshape, scanBlocksF_step g ib tail f hg hcl]
        rw [scanBlocksF_nil htail f]
        rw [List.map_cons, List.map_nil, hib]
      | cons tc2 rest =>
        have hshape : g ++ (callsCat' (tc :: tc2 :: rest) ++ tail)
            = g ++ (openTag ++ ('\n' :: (('{' :: (ib ++ ['}']))
                ++ ('\n' :: (closeTag ++ (['\n'] ++ (callsCat' (tc2 :: rest) ++ tail))))))) := by
          rw [show callsCat' (tc :: tc2 :: rest)
              = blockOf tc ++ ('\n' :: callsCat' (tc2 :: rest)) from rfl]
          simp only [blockOf, hib, List.append_assoc, List.cons_append,
            List.singleton_append, List.nil_append]
        rw [hshape, scanBlocksF_step g ib _ f hg hcl]
        rw [ih ['\n'] f (by simp only [List.length_cons] at hf ⊢; omega) (by simp)
          (by decide) (fun tc' h' => hblocks tc' (by simp [h']))]
        simp [List.map_cons, hib]

/-! ### The serialisation side of the round trip -/

theorem serJ_obj_shape (i : Nat) (k : Str) (v : Json) (tl : JObj) :
    ∃ ib, serJ (some i) (Json.obj (JObj.cons k v tl)) = '{' :: (ib ++ ['}']) := by
  refine ⟨'\n' :: (serKVsP (i + 2) (JObj.cons k v tl) ++ ('\n' :: spacesN i)), ?_⟩
  show '{' :: '\n' :: (serKVsP (i + 2) (JObj.cons k v tl) ++ '\n' :: (spacesN i ++ ['}']))
    = _
  simp [List.append_assoc]

theorem serReqCall_eq (tc : ReqToolCall) (a : Json)
    (h : jsonParse tc.arguments = some a) :
    serReqCall tc = some (blockOf tc ++ ['\n']) := by
  simp only [serReqCall, h, Option.map_some, blockOf, blockBody, Option.getD_some]
  simp [List.append_assoc]

theorem serReqCalls_eq : ∀ (tcs : List ReqToolCall),
    (∀ tc ∈ tcs, ∃ a, jsonParse tc.arguments = some a) →
    serReqCalls tcs = some (callsCat tcs) := by
  intro tcs
  induction tcs with
  | nil => intro _; rfl
  | cons tc tl ih =>
    intro h
    obtain ⟨a, ha⟩ := h tc (by simp)
    rw [serReqCalls, serReqCall_eq tc a ha, ih (fun tc' h' => h tc' (by simp [h']))]
    rw [callsCat]
    simp [List.append_assoc]

theorem callsCat_eq (tcs : List ReqToolCall) (h : tcs ≠ []) :
    callsCat tcs = callsCat' tcs ++ ['\n'] := by
  induction tcs with
  | nil => exact absurd rfl h
  | cons tc tl ih =>
    cases tl with
    | nil => rfl
    | cons tc2 rest =>
      rw [callsCat, ih (by simp)]
      rw [show callsCat' (tc :: tc2 :: rest)
          = blockOf tc ++ ('\n' :: callsCat' (tc2 :: rest)) from rfl]
      simp

/-! ### Field lookup on the reconstructed JSON object -/

theorem jget_req_id (tc : ReqToolCall) (a : Json) :
    jgetJ (reqCallJson tc a) (chars "id") = some (Json.str tc.id) := by
  have e1 := eq_false (by decide : ¬(chars "name" = chars "id"))
  have e2 := eq_false (by decide : ¬(chars "arguments" = chars "id"))
  simp [reqCallJson, jgetJ, jget, e1, e2]

theorem jget_req_name (tc : ReqToolCall) (a : Json) :
    jgetJ (reqCallJson tc a) (chars "name") = some (Json.str tc.name) := by
  have e1 := eq_false (by decide : ¬(chars "arguments" = chars "name"))
  have e2 := eq_false (by decide : ¬(chars "id" = chars "name"))
  simp [reqCallJson, jgetJ, jget, e1, e2]

theorem jget_req_args (tc : ReqToolCall) (a : Json) :
    jgetJ (reqCallJson tc a) (chars "arguments") = some a := by
  simp [reqCallJson, jgetJ, jget]

/-! ### Reassembling the parsed calls -/

theorem buildCalls_blocks (sup : Nat → Str) : ∀ (tcs : List ReqToolCall) (k : Nat),
    (∀ tc ∈ tcs, ∃ kvs, jsonParse tc.arguments = some (Json.obj kvs)) →
    (∀ tc ∈ tcs, tc.id ≠ []) →
    List.Forall₂ (fun c tc => c.id = Json.str tc.id ∧ c.name = some (Json.str tc.name) ∧
      ∃ s, c.arguments = some s ∧ jsonParse s = jsonParse tc.arguments)
      (buildCallsAux sup k (tcs.map blockBody)) tcs := by
  intro tcs
  induction tcs with
  | nil => intro k _ _; exact List.Forall₂.nil
  | cons tc tl ih =>
    intro k hargs hids
    obtain ⟨kvs, hkvs⟩ := hargs tc (by simp)
    have hbody : blockBody tc = serJ (some 0) (reqCallJson tc (Json.obj kvs)) := by
      simp [blockBody, hkvs]
    have hparse : jsonParse (blockBody tc) = some (reqCallJson tc (Json.obj kvs)) := by
      rw [hbody]
      exact jsonParse_serJ _ _
    have htruthy : jtruthy (some (Json.str tc.id)) = true := by
      simp [jtruthy, isEmpty_false_of_ne_nil (hids tc (by simp))]
    rw [List.map_cons]
    simp only [buildCallsAux, hparse, jget_req_id, jget_req_name, jget_req_args,
      htruthy, Bool.not_true, Option.getD_some, if_true]
    have htl := ih k (fun tc' h' => hargs tc' (List.mem_cons_of_mem _ h'))
      (fun tc' h' => hids tc' (List.mem_cons_of_mem _ h'))
    refine List.Forall₂.cons ?_ ?_
    · exact ⟨rfl, rfl, serJ none (Json.obj kvs), rfl, by rw [jsonParse_serJ, hkvs]⟩
    · exact htl

/-! ### C1: the round trip end to end -/

/-- C1 (amended: the round trip holds when every call has a non-empty id and
an argument string parsing to a JSON object, the serialised block contains
no `</tool_call>` occurrence, and the message text contains no `<tool_call>`
occurrence): lowering an assistant message with N tool calls through
`messagesToPrompt` and parsing the prompt with `parseToolCalls` yields
exactly N calls with the same ids and names and with argument strings that
parse back to the original argument objects. -/
theorem claim_C1 (content : Option OContent) (tcs : List ReqToolCall) (sup : Nat → Str)
    (hne : tcs ≠ [])
    (hargs : ∀ tc ∈ tcs, ∃ kvs, jsonParse tc.arguments = some (Json.obj kvs))
    (hids : ∀ tc ∈ tcs, tc.id ≠ [])
    (hclose : ∀ tc ∈ tcs, occurs closeTag (blockBody tc) = false)
    (hcont : occurs openTag (extractTextOpt content) = false) :
    ∃ p, messagesToPrompt [OMessage.assistant content tcs] none = some p ∧
      (parseToolCalls sup p).toolCalls.length = tcs.length ∧
      List.Forall₂ (fun c tc => c.id = Json.str tc.id ∧
        c.name = some (Json.str tc.name) ∧
        ∃ s, c.arguments = some s ∧ jsonParse s = jsonParse tc.arguments)
        (parseToolCalls sup p).toolCalls tcs := by
  have hccne : callsCat' tcs ≠ [] := by
    intro he
    have hgl := callsCat'_getLast tcs hne
    rw [he] at hgl
    simp at hgl
  have hA : chars "<previous_response>\n" = '<' :: chars "previous_response>\n" := by decide
  have hbase0 : occurs openTag (if contentTruthy content then extractTextOpt content ++ chars "\n" else []) = false := by
    by_cases hct : contentTruthy content = true
    · rw [if_pos hct]
      exact occurs_append_elem hcont (by decide) (by decide)
    · rw [if_neg hct]
      decide
  have hg : occurs openTag (chars "<previous_response>\n" ++ trimWsL (if contentTruthy content then extractTextOpt content ++ chars "\n" else [])) = false :=
    occurs_append_free (by decide) (occurs_dropWhile_le isJsWs hbase0)
  have hser := serReqCalls_eq tcs (fun tc h =>
    (hargs tc h).elim (fun kvs hk => ⟨Json.obj kvs, hk⟩))
  have hlen0 : tcs.length > 0 := List.length_pos.mpr hne
  have hap : assistantPart content tcs
      = some (chars "<previous_response>\n" ++ trimWs ((if contentTruthy content then extractTextOpt content ++ chars "\n" else []) ++ callsCat tcs) ++ chars "\n</previous_response>\n") := by
    unfold assistantPart
    rw [if_pos hlen0, hser]
  have hM : trimWs ((if contentTruthy content then extractTextOpt content ++ chars "\n" else []) ++ callsCat tcs) = trimWsL (if contentTruthy content then extractTextOpt content ++ chars "\n" else []) ++ callsCat' tcs := by
    rw [callsCat_eq tcs hne]
    unfold trimWs
    rw [show (if contentTruthy content then extractTextOpt content ++ chars "\n" else []) ++ (callsCat' tcs ++ ['\n']) = ((if contentTruthy content then extractTextOpt content ++ chars "\n" else []) ++ callsCat' tcs) ++ ['\n'] by simp]
    rw [trimWsR_append_ws (by decide)]
    rw [trimWsR_of_getLast_not_ws (by
        rw [List.getLast?_append_of_ne_nil _ hccne]
        exact callsCat'_getLast tcs hne) (by decide)]
    obtain ⟨t0, ht0⟩ := callsCat'_head tcs hne
    exact trimWsL_append_head ht0 (by decide)
  rw [hM] at hap
  have hpp : promptPartsF 2 [OMessage.assistant content tcs]
      = some [chars "<previous_response>\n" ++ (trimWsL (if contentTruthy content then extractTextOpt content ++ chars "\n" else []) ++ callsCat' tcs) ++ chars "\n</previous_response>\n"] := by
    simp [promptPartsF, hap]
  have hmp : messagesToPrompt [OMessage.assistant content tcs] none
      = some (trimWs (chars "<previous_response>\n" ++ (trimWsL (if contentTruthy content then extractTextOpt content ++ chars "\n" else []) ++ callsCat' tcs) ++ chars "\n</previous_response>\n")) := by
    simp [messagesToPrompt, promptParts, hpp, List.intercalate]
  have hT : trimWs (chars "<previous_response>\n" ++ (trimWsL (if contentTruthy content then extractTextOpt content ++ chars "\n" else []) ++ callsCat' tcs) ++ chars "\n</previous_response>\n") = (chars "<previous_response>\n" ++ (trimWsL (if contentTruthy content then extractTextOpt content ++ chars "\n" else []) ++ callsCat' tcs)) ++ chars "\n</previous_response>" := by
    unfold trimWs
    rw [show chars "\n</previous_response>\n" = chars "\n</previous_response>" ++ ['\n'] from by decide]
    rw [show chars "<previous_response>\n" ++ (trimWsL (if contentTruthy content then extractTextOpt content ++ chars "\n" else []) ++ callsCat' tcs) ++ (chars "\n</previous_response>" ++ ['\n'])
        = ((chars "<previous_response>\n" ++ (trimWsL (if contentTruthy content then extractTextOpt content ++ chars "\n" else []) ++ callsCat' tcs)) ++ chars "\n</previous_response>") ++ ['\n'] by simp [List.append_assoc]]
    rw [trimWsR_append_ws (by decide)]
    rw [@trimWsR_of_getLast_not_ws _ '>' (by
        rw [List.getLast?_append_of_ne_nil _ (by decide)]
        decide) (by decide)]
    have hxs : (chars "<previous_response>\n" ++ (trimWsL (if contentTruthy content then extractTextOpt content ++ chars "\n" else []) ++ callsCat' tcs)) ++ chars "\n</previous_response>"
        = '<' :: ((chars "previous_response>\n" ++ (trimWsL (if contentTruthy content then extractTextOpt content ++ chars "\n" else []) ++ callsCat' tcs)) ++ chars "\n</previous_response>") := by
      rw [hA]
      simp
    exact trimWsL_head_not_ws hxs (by decide)
  have hblocks : ∀ tc ∈ tcs, ∃ ib, blockBody tc = '\x7b' :: (ib ++ ['\x7d']) ∧
      occurs closeTag (ib ++ ['\x7d']) = false := by
    intro tc htc
    obtain ⟨kvs, hkvs⟩ := hargs tc htc
    have hb : blockBody tc
        = serJ (some 0) (Json.obj (JObj.cons (chars "id") (Json.str tc.id)
            (JObj.cons (chars "name") (Json.str tc.name)
              (JObj.cons (chars "arguments") (Json.obj kvs) JObj.nil)))) := by
      simp [blockBody, hkvs, reqCallJson]
    obtain ⟨ib, hib⟩ := serJ_obj_shape 0 (chars "id") (Json.str tc.id)
      (JObj.cons (chars "name") (Json.str tc.name)
        (JObj.cons (chars "arguments") (Json.obj kvs) JObj.nil))
    refine ⟨ib, by rw [hb, hib], ?_⟩
    have hcl := hclose tc htc
    rw [hb, hib] at hcl
    exact not_occurs_tail hcl
  have hshape : (chars "<previous_response>\n" ++ (trimWsL (if contentTruthy content then extractTextOpt content ++ chars "\n" else []) ++ callsCat' tcs)) ++ chars "\n</previous_response>" = (chars "<previous_response>\n" ++ trimWsL (if contentTruthy content then extractTextOpt content ++ chars "\n" else [])) ++ (callsCat' tcs ++ chars "\n</previous_response>") := by
    simp [List.append_assoc]
  have hscan : scanBlocks ((chars "<previous_response>\n" ++ (trimWsL (if contentTruthy content then extractTextOpt content ++ chars "\n" else []) ++ callsCat' tcs)) ++ chars "\n</previous_response>") = tcs.map blockBody := by
    unfold scanBlocks
    rw [hshape]
    refine scanBlocksF_calls (chars "\n</previous_response>") (by decide) tcs
      (chars "<previous_response>\n" ++ trimWsL
        (if contentTruthy content then extractTextOpt content ++ chars "\n" else [])) _
      ?_ hne hg hblocks
    have hge := callsCat'_length_ge tcs
    simp only [List.length_append]
    omega
  have htcs : (parseToolCalls sup ((chars "<previous_response>\n" ++ (trimWsL (if contentTruthy content then extractTextOpt content ++ chars "\n" else []) ++ callsCat' tcs)) ++ chars "\n</previous_response>")).toolCalls
      = buildCallsAux sup 0 (tcs.map blockBody) := by
    show buildCallsAux sup 0 (scanBlocks ((chars "<previous_response>\n" ++ (trimWsL (if contentTruthy content then extractTextOpt content ++ chars "\n" else []) ++ callsCat' tcs)) ++ chars "\n</previous_response>"))
      = buildCallsAux sup 0 (tcs.map blockBody)
    rw [hscan]
  have hfa := buildCalls_blocks sup tcs 0 hargs hids
  refine ⟨(chars "<previous_response>\n" ++ (trimWsL (if contentTruthy content then extractTextOpt content ++ chars "\n" else []) ++ callsCat' tcs)) ++ chars "\n</previous_response>", by rw [hmp, hT], ?_, ?_⟩
  · rw [htcs]
    exact hfa.length_eq
  · rw [htcs]
    exact hfa

/-- C1 witness: the theorem applied to a concrete assistant message with one
tool call carrying the argument object \x7b"x": 1\x7d. -/
theorem claim_C1_witness :
    ∃ p, messagesToPrompt
        [OMessage.assistant none [⟨chars "a", chars "f", chars "\x7b\"x\": 1\x7d"⟩]]
        none = some p ∧
      (parseToolCalls (fun _ => chars "0") p).toolCalls.length
        = ([(⟨chars "a", chars "f", chars "\x7b\"x\": 1\x7d"⟩ : ReqToolCall)]).length ∧
      List.Forall₂ (fun c tc => c.id = Json.str tc.id ∧
        c.name = some (Json.str tc.name) ∧
        ∃ s, c.arguments = some s ∧ jsonParse s = jsonParse tc.arguments)
        (parseToolCalls (fun _ => chars "0") p).toolCalls
        [(⟨chars "a", chars "f", chars "\x7b\"x\": 1\x7d"⟩ : ReqToolCall)] :=
  claim_C1 none [⟨chars "a", chars "f", chars "\x7b\"x\": 1\x7d"⟩] (fun _ => chars "0")
    (by simp)
    (fun tc htc => by
      rw [List.mem_singleton] at htc
      subst htc
      exact ⟨JObj.cons (chars "x") (Json.num 1) JObj.nil, by decide⟩)
    (fun tc htc => by
      rw [List.mem_singleton] at htc
      subst htc
      decide)
    (fun tc htc => by
      rw [List.mem_singleton] at htc
      subst htc
      decide)
    (by decide)

/-- C1 counterexample: the argument string parses to a JSON object, yet its
serialised block embeds a `</tool_call>` occurrence inside a string value,
so the scanner closes the block early and recovers zero tool calls. -/
theorem claim_C1_counterexample :
    (jsonParse (chars "\x7b\"x\": \"\x7d</tool_call>\"\x7d")).isSome = true ∧
    (messagesToPrompt
        [OMessage.assistant none
          [⟨chars "a", chars "f", chars "\x7b\"x\": \"\x7d</tool_call>\"\x7d"⟩]] none).map
      (fun p => (parseToolCalls (fun _ => chars "0") p).toolCalls.length) = some 0 := by
  constructor
  · decide
  · decide

/-- C7 counterexample: two requests with equal `messages` and equal `tools`
but different `tool_choice` receive different prompts: with a non-empty
tool list, `tool_choice = "none"` suppresses the tool manifest while an
unset `tool_choice` injects it, so the prompt is not a pure function of
(messages, tools) alone. -/
theorem claim_C7_counterexample :
    (⟨[OMessage.user (OContent.str (chars "hi"))], some [⟨⟨chars "t", none, none⟩⟩],
        none, chars "m", none, false⟩ : ORequest).messages
      = (⟨[OMessage.user (OContent.str (chars "hi"))], some [⟨⟨chars "t", none, none⟩⟩],
          some (chars "none"), chars "m", none, false⟩ : ORequest).messages ∧
    (⟨[OMessage.user (OContent.str (chars "hi"))], some [⟨⟨chars "t", none, none⟩⟩],
        none, chars "m", none, false⟩ : ORequest).tools
      = (⟨[OMessage.user (OContent.str (chars "hi"))], some [⟨⟨chars "t", none, none⟩⟩],
          some (chars "none"), chars "m", none, false⟩ : ORequest).tools ∧
    (openaiToCli ⟨[OMessage.user (OContent.str (chars "hi"))],
        some [⟨⟨chars "t", none, none⟩⟩], none, chars "m", none, false⟩).map
      CliInput.prompt
      ≠ (openaiToCli ⟨[OMessage.user (OContent.str (chars "hi"))],
          some [⟨⟨chars "t", none, none⟩⟩], some (chars "none"), chars "m", none,
          false⟩).map CliInput.prompt := by
  refine ⟨rfl, rfl, ?_⟩
  decide
